import Mathlib

/-!
Verification development for the traffic-aware SDN controller
(`traffic_aware_controller.py`).

The controller state (topology graph, host table, port statistics,
connected datapaths, one-shot proactive-install flag) and every event
handler are embedded as executable Lean definitions.  Machine reals
(Python floats) are modelled by `ℚ`; Python byte counters by `ℕ` with
subtraction carried out in `ℚ` (Python ints do not wrap).  A Python
exception escaping a handler is modelled by an `Option Err` component of
the handler result; mutations performed before the raise are kept, as in
Python.  The networkx calls used by the source (`DiGraph` operations and
`nx.shortest_path` with a weight attribute, which runs Dijkstra and
raises `NodeNotFound` when an endpoint is missing and `NetworkXNoPath`
when no path exists) are modelled below.
-/

namespace Controller

/-- Attributes stored on a directed edge of the topology graph:
`port=` (egress port at the source switch), `weight=`, `capacity=`
(source lines 139-142). -/
structure EdgeData where
  port : Nat
  weight : ℚ
  capacity : ℚ
deriving DecidableEq

/-- One directed edge of the networkx `DiGraph`, keyed by (src, dst). -/
structure NxEdge where
  src : Nat
  dst : Nat
  data : EdgeData
deriving DecidableEq

/-- Model of `networkx.DiGraph`: node list plus directed edges. -/
structure DiGraph where
  nodes : List Nat
  edges : List NxEdge
deriving DecidableEq

/-- Lookup of the edge (u, v) in an edge list (model of `G[u][v]`). -/
def findEdge : List NxEdge → Nat → Nat → Option NxEdge
  | [], _, _ => none
  | e :: rest, u, v => if e.src = u ∧ e.dst = v then some e else findEdge rest u v

/-- Model of `G[u][v]` returning the attribute dictionary. -/
def DiGraph.getEdge (g : DiGraph) (u v : Nat) : Option EdgeData :=
  (findEdge g.edges u v).map (·.data)

/-- Model of `G.has_edge(u, v)`. -/
def DiGraph.hasEdge (g : DiGraph) (u v : Nat) : Bool :=
  (g.getEdge u v).isSome

/-- Model of `G.add_node(n)` (idempotent, like networkx). -/
def DiGraph.addNode (g : DiGraph) (n : Nat) : DiGraph :=
  if n ∈ g.nodes then g else { g with nodes := g.nodes ++ [n] }

/-- Model of `G.remove_node(n)`: removes the node and every incident
edge (networkx cascade). -/
def DiGraph.removeNode (g : DiGraph) (n : Nat) : DiGraph :=
  { nodes := g.nodes.filter (fun x => decide (x ≠ n)),
    edges := g.edges.filter (fun e => decide (e.src ≠ n ∧ e.dst ≠ n)) }

/-- Replace the data of the (u, v) edge, keeping the edge list order. -/
def replaceEdge : List NxEdge → Nat → Nat → EdgeData → List NxEdge
  | [], _, _, _ => []
  | e :: rest, u, v, d =>
    if e.src = u ∧ e.dst = v then { e with data := d } :: rest
    else e :: replaceEdge rest u v d

/-- Model of `G.add_edge(u, v, **attrs)`: adds missing endpoints as
nodes and overwrites the attributes of an existing edge. -/
def DiGraph.addEdge (g : DiGraph) (u v : Nat) (d : EdgeData) : DiGraph :=
  let g1 := (g.addNode u).addNode v
  if g1.hasEdge u v then { g1 with edges := replaceEdge g1.edges u v d }
  else { g1 with edges := g1.edges ++ [⟨u, v, d⟩] }

/-- Model of `G.remove_edge(u, v)`. -/
def DiGraph.removeEdge (g : DiGraph) (u v : Nat) : DiGraph :=
  { g with edges := g.edges.filter (fun e => decide (¬(e.src = u ∧ e.dst = v))) }

/-- Out-edges of `u` (model of iterating `G.neighbors(u)` on a DiGraph
together with the `G[u][n]` lookups). -/
def DiGraph.succs (g : DiGraph) (u : Nat) : List NxEdge :=
  g.edges.filter (fun e => decide (e.src = u))

/-- Empty graph (`nx.DiGraph()`). -/
def DiGraph.empty : DiGraph := ⟨[], []⟩

/-- Directed reachability in the topology graph: "the graph contains a
directed edge sequence from `a` to `b`". -/
inductive Reaches (g : DiGraph) : Nat → Nat → Prop
  | refl (a : Nat) : Reaches g a a
  | step {a b c : Nat} : g.hasEdge a b = true → Reaches g b c → Reaches g a c

/-- One hop of a directed path. -/
def EdgeStep (g : DiGraph) (a b : Nat) : Prop := g.hasEdge a b = true

/-- A list of switch ids forming a directed path in the graph. -/
abbrev IsChain (g : DiGraph) (l : List Nat) : Prop := List.Chain' (EdgeStep g) l

/-! ### Model of `nx.shortest_path(G, src, dst, weight='weight')`

networkx dispatches to `bidirectional_dijkstra`, which first raises
`NodeNotFound` when either endpoint is not a node of the graph, raises
`NetworkXNoPath` when the search exhausts its fringe, and raises
`ValueError("Contradictory paths found: negative weights?")` whenever
relaxation finds a strictly shorter route into an already-finalized
node — possible only when the graph carries negative edge weights.

The search below is the Dijkstra loop run from the source: finalized
nodes carry their final distance (`dists`, the `dist` dict of the
Python code); fringe entries carry the accumulated cost and the
reversed path (endpoint first); the minimum-cost entry is popped each
iteration; an entry whose endpoint is already finalized is dropped;
otherwise the endpoint is finalized and its out-edges are relaxed, with
the `vu_dist < dist[u]` contradiction check raising `ValueError`
exactly as in the Python relaxation.  (The Python `seen` map only
suppresses dominated fringe entries and affects neither the finalized
distances nor the raise condition; the bidirectional split changes
which negative-weight graphs raise, not the error classes, and no
claim below depends on the exact trigger set or on tie-breaking.)
Fuel bounds the iteration count; `edges.length + 1` is proved
sufficient below. -/

inductive NxErr where
  | nodeNotFound
  | noPath
  /-- `ValueError("Contradictory paths found: negative weights?")`. -/
  | valueError
deriving DecidableEq

/-- Pop a minimum-cost entry from a nonempty frontier, returning it and
the remaining entries. -/
def popMin1 : (ℚ × List Nat) → List (ℚ × List Nat) → (ℚ × List Nat) × List (ℚ × List Nat)
  | x, [] => (x, [])
  | x, y :: ys =>
    let m := popMin1 y ys
    if x.1 ≤ m.1.1 then (x, y :: ys) else (m.1, x :: m.2)

/-- Lookup in the finalized-distance map (the Python `dist` dict). -/
def lookupDist : List (Nat × ℚ) → Nat → Option ℚ
  | [], _ => none
  | (u, du) :: rest, v => if v = u then some du else lookupDist rest v

/-- Relax the out-edges of the just-finalized node (distance `d`,
reversed path `rp`): an edge into a node already finalized with a
strictly larger distance raises `ValueError`; an edge into a
non-finalized node pushes a fringe entry. -/
def relaxEdges (d : ℚ) (rp : List Nat) (dists : List (Nat × ℚ)) :
    List NxEdge → Except NxErr (List (ℚ × List Nat))
  | [] => .ok []
  | ed :: rest =>
    let vu_dist := d + ed.data.weight
    match lookupDist dists ed.dst with
    | some u_dist =>
      if vu_dist < u_dist then .error .valueError
      else relaxEdges d rp dists rest
    | none =>
      match relaxEdges d rp dists rest with
      | .error e => .error e
      | .ok pushes => .ok ((vu_dist, ed.dst :: rp) :: pushes)

/-- Dijkstra main loop (model of the search inside `nx.shortest_path`):
returns the path to the target, `noPath` on fringe exhaustion, or
`valueError` from a contradictory relaxation. -/
def dijkstraLoop (g : DiGraph) (t : Nat) :
    Nat → List (Nat × ℚ) → List (ℚ × List Nat) → Except NxErr (List Nat)
  | _, _, [] => .error .noPath
  | 0, _, _ :: _ => .error .noPath
  | fuel + 1, dists, f :: fs =>
    let p := popMin1 f fs
    let v := p.1.2.headD 0
    if (lookupDist dists v).isSome then dijkstraLoop g t fuel dists p.2
    else if v = t then .ok p.1.2.reverse
    else
      match relaxEdges p.1.1 p.1.2 ((v, p.1.1) :: dists) (g.succs v) with
      | .error e => .error e
      | .ok pushes => dijkstraLoop g t fuel ((v, p.1.1) :: dists) (p.2 ++ pushes)

/-- Model of `nx.shortest_path(G, s, t, weight='weight')`. -/
def nxShortestPath (g : DiGraph) (s t : Nat) : Except NxErr (List Nat) :=
  if s ∈ g.nodes ∧ t ∈ g.nodes then
    if s = t then .ok [s]
    else
      match dijkstraLoop g t (g.edges.length + 1) [] [(0, [s])] with
      | .ok p => .ok p
      | .error e => .error e
  else .error .nodeNotFound

/-! ### Controller state and handlers -/

/-- Python exceptions that can escape a handler. -/
inductive Err where
  /-- `networkx.NodeNotFound`, raised by `nx.shortest_path` and not
  caught by `calculate_best_path` (which catches only `NetworkXNoPath`). -/
  | nodeNotFound
  /-- `networkx.NetworkXError`, raised by `G.neighbors(dpid)` when
  `dpid` is not a node of the graph. -/
  | networkXError
  /-- Python `KeyError` from a `G[u][v]` lookup of an absent edge. -/
  | keyError
  /-- `ValueError` from a contradictory Dijkstra relaxation (negative
  weights), raised inside `nx.shortest_path` and not caught by
  `calculate_best_path`. -/
  | valueError
deriving DecidableEq

/-- One entry of an `OFPPortStatsReply` body. -/
structure PortStat where
  port_no : Nat
  tx_bytes : Nat
  rx_bytes : Nat
deriving DecidableEq

/-- Stored sample in `self.port_stats[(dpid, port)]`. -/
structure StatSample where
  tx_bytes : Nat
  rx_bytes : Nat
  timestamp : ℚ
deriving DecidableEq

/-- Messages sent toward switches (the observable output of a handler). -/
inductive Action where
  /-- `add_flow(datapath, priority, match(eth_dst, eth_src), [output(out_port)])`. -/
  | flowMod (dpid : Nat) (eth_src eth_dst : String) (out_port priority : Nat)
  /-- `OFPPacketOut(datapath, buffer_id, in_port, actions=[output(out_port)])`. -/
  | packetOut (dpid in_port out_port : Nat)
deriving DecidableEq

/-- `ofproto.OFPP_FLOOD`. -/
def OFPP_FLOOD : Nat := 0xfffffffb

/-- `0xfffffffe`, the LOCAL port skipped by the stats handler. -/
def OFPP_LOCAL : Nat := 0xfffffffe

/-- Controller state (`__init__`, lines 49-69).  `install_runs` is a
ghost counter of how many times `_install_proactive_flows` has been
invoked, and `armed_timers` counts `delayed_install` threads that have
been started and not yet run. -/
structure ControllerState where
  net : DiGraph
  hosts : List (String × Nat × Nat)
  port_stats : List ((Nat × Nat) × StatSample)
  datapaths : List Nat
  proactive_flows_installed : Bool
  armed_timers : Nat
  install_runs : Nat
deriving DecidableEq

/-- Initial state. -/
def initState : ControllerState :=
  { net := DiGraph.empty, hosts := [], port_stats := [], datapaths := [],
    proactive_flows_installed := false, armed_timers := 0, install_runs := 0 }

/-- Python dict lookup in the host table `self.hosts`. -/
def lookupHost : List (String × Nat × Nat) → String → Option (Nat × Nat)
  | [], _ => none
  | (m, loc) :: rest, mac => if mac = m then some loc else lookupHost rest mac

/-- Python dict lookup in `self.port_stats`. -/
def lookupStat : List ((Nat × Nat) × StatSample) → Nat × Nat → Option StatSample
  | [], _ => none
  | (k, s) :: rest, key => if key = k then some s else lookupStat rest key

/-- Inner loop of `_port_stats_reply_handler` (lines 236-243): write
`1 + utilization * 10` onto every out-edge of `dpid` whose `port`
attribute equals `port_no`. -/
def update_edge_weights (g : DiGraph) (dpid port_no : Nat) (throughput_mbps : ℚ) : DiGraph :=
  { g with
    edges := g.edges.map (fun e =>
      if e.src = dpid ∧ e.data.port = port_no then
        let capacity := e.data.capacity
        let utilization := min (throughput_mbps / capacity) 1
        let new_weight := 1 + utilization * 10
        { e with data := { e.data with weight := new_weight } }
      else e) }

/-- Body loop of `_port_stats_reply_handler` (lines 217-254).  Each
entry: skip the LOCAL port; with a previous sample and positive elapsed
time, compute the throughput and update matching edge weights (raising
`NetworkXError` at `self.net.neighbors(dpid)` when `dpid` is not a
node); finally store the new sample.  Effects performed before a raise
are kept, as in Python. -/
def process_port_stats (g : DiGraph) (stats : List ((Nat × Nat) × StatSample))
    (dpid : Nat) (curr_time : ℚ) :
    List PortStat → DiGraph × List ((Nat × Nat) × StatSample) × Option Err
  | [] => (g, stats, none)
  | stat :: body =>
    if stat.port_no = OFPP_LOCAL then process_port_stats g stats dpid curr_time body
    else
      match lookupStat stats (dpid, stat.port_no) with
      | some prev_stats =>
        let time_diff := curr_time - prev_stats.timestamp
        if 0 < time_diff then
          if dpid ∈ g.nodes then
            let tx_speed := ((stat.tx_bytes : ℚ) - (prev_stats.tx_bytes : ℚ)) / time_diff
            let rx_speed := ((stat.rx_bytes : ℚ) - (prev_stats.rx_bytes : ℚ)) / time_diff
            let throughput_mbps := (tx_speed + rx_speed) * 8 / 1000000
            let g2 := update_edge_weights g dpid stat.port_no throughput_mbps
            process_port_stats g2
              (((dpid, stat.port_no), ⟨stat.tx_bytes, stat.rx_bytes, curr_time⟩) :: stats)
              dpid curr_time body
          else (g, stats, some .networkXError)
        else
          process_port_stats g
            (((dpid, stat.port_no), ⟨stat.tx_bytes, stat.rx_bytes, curr_time⟩) :: stats)
            dpid curr_time body
      | none =>
        process_port_stats g
          (((dpid, stat.port_no), ⟨stat.tx_bytes, stat.rx_bytes, curr_time⟩) :: stats)
          dpid curr_time body

/-- `calculate_best_path` (lines 260-276): identical endpoints short
circuit, then `nx.shortest_path`, catching only `NetworkXNoPath`. -/
def calculate_best_path (g : DiGraph) (src_dpid dst_dpid : Nat) :
    Except Err (Option (List Nat)) :=
  if src_dpid = dst_dpid then .ok (some [src_dpid])
  else
    match nxShortestPath g src_dpid dst_dpid with
    | .ok path => .ok (some path)
    | .error .noPath => .ok none
    | .error .nodeNotFound => .error .nodeNotFound
    | .error .valueError => .error .valueError

/-- `_install_path_flows` (lines 332-355): walk the path in order,
skipping switches absent from `self.datapaths`; the last switch outputs
to `last_out_port`, every other switch outputs to the egress port of the
edge toward the next switch (`self.net[dpid][next_dpid]['port']`, a
`KeyError` if absent).  Flows sent before a raise are kept. -/
def install_path_flows (g : DiGraph) (datapaths : List Nat)
    (src_mac dst_mac : String) (first_in_port last_out_port : Nat) :
    List Nat → List Action × Option Err
  | [] => ([], none)
  | [dpid] =>
    if dpid ∈ datapaths then ([.flowMod dpid src_mac dst_mac last_out_port 1], none)
    else ([], none)
  | dpid :: next_dpid :: rest =>
    if dpid ∈ datapaths then
      match g.getEdge dpid next_dpid with
      | none => ([], some .keyError)
      | some ed =>
        let r := install_path_flows g datapaths src_mac dst_mac first_in_port last_out_port
          (next_dpid :: rest)
        (.flowMod dpid src_mac dst_mac ed.port 1 :: r.1, r.2)
    else install_path_flows g datapaths src_mac dst_mac first_in_port last_out_port
      (next_dpid :: rest)

/-- Fixed registry of `_install_proactive_flows` (lines 300-310), in
source order. -/
def known_hosts : List (String × Nat × Nat) :=
  [("00:00:00:00:00:01", 2, 4),
   ("00:00:00:00:00:02", 7, 1),
   ("00:00:00:00:00:03", 7, 2),
   ("00:00:00:00:00:04", 8, 1),
   ("00:00:00:00:00:05", 8, 2),
   ("00:00:00:00:00:06", 9, 1),
   ("00:00:00:00:00:07", 9, 2),
   ("00:00:00:00:00:08", 10, 1),
   ("00:00:00:00:00:09", 10, 2)]

/-- Inner destination loop of `_install_proactive_flows` (lines
320-328) for one source host; aborts on a raised exception, keeping the
flows already sent. -/
def proactive_inner (g : DiGraph) (datapaths : List Nat)
    (src_mac : String) (src_dpid src_port : Nat) :
    List (String × Nat × Nat) → List Action × Option Err
  | [] => ([], none)
  | (dst_mac, dst_dpid, dst_port) :: rest =>
    if src_mac = dst_mac then proactive_inner g datapaths src_mac src_dpid src_port rest
    else
      match calculate_best_path g src_dpid dst_dpid with
      | .error e => ([], some e)
      | .ok pathOpt =>
        let installed :=
          match pathOpt with
          | some path =>
            if 1 ≤ path.length then
              install_path_flows g datapaths src_mac dst_mac src_port dst_port path
            else ([], none)
          | none => ([], none)
        match installed.2 with
        | some e => (installed.1, some e)
        | none =>
          let r := proactive_inner g datapaths src_mac src_dpid src_port rest
          (installed.1 ++ r.1, r.2)

/-- Outer source loop of `_install_proactive_flows` (line 319). -/
def proactive_outer (g : DiGraph) (datapaths : List Nat) :
    List (String × Nat × Nat) → List Action × Option Err
  | [] => ([], none)
  | (src_mac, src_dpid, src_port) :: rest =>
    let r := proactive_inner g datapaths src_mac src_dpid src_port known_hosts
    match r.2 with
    | some e => (r.1, some e)
    | none =>
      let r2 := proactive_outer g datapaths rest
      (r.1 ++ r2.1, r2.2)

/-- `_install_proactive_flows` (lines 294-330): first store every
registry host into `self.hosts`, then compute and install flow rules
for every ordered pair of distinct registry hosts.  The host-table
writes happen before any path computation, so they persist even when the
pair loop raises. -/
def install_proactive_flows (st : ControllerState) : ControllerState × List Action × Option Err :=
  let hosts2 := known_hosts.foldl (fun h p => p :: h) st.hosts
  let r := proactive_outer st.net st.datapaths known_hosts
  ({ st with hosts := hosts2 }, r.1, r.2)

/-- `switch_enter_handler` (lines 114-119). -/
def switch_enter_handler (st : ControllerState) (dpid : Nat) :
    ControllerState × List Action × Option Err :=
  ({ st with net := st.net.addNode dpid }, [], none)

/-- `switch_leave_handler` (lines 121-127). -/
def switch_leave_handler (st : ControllerState) (dpid : Nat) :
    ControllerState × List Action × Option Err :=
  if dpid ∈ st.net.nodes then ({ st with net := st.net.removeNode dpid }, [], none)
  else (st, [], none)

/-- `link_add_handler` (lines 129-158): add both directed edges with
`weight=1, capacity=100`, then, if the one-shot flag is unset and the
updated graph has at least 10 edges, start a `delayed_install` thread
(modelled by incrementing `armed_timers`). -/
def link_add_handler (st : ControllerState) (src_dpid dst_dpid src_port dst_port : Nat) :
    ControllerState × List Action × Option Err :=
  let net1 := (st.net.addEdge src_dpid dst_dpid ⟨src_port, 1, 100⟩).addEdge
    dst_dpid src_dpid ⟨dst_port, 1, 100⟩
  let armed :=
    if ¬st.proactive_flows_installed ∧ 10 ≤ net1.edges.length then st.armed_timers + 1
    else st.armed_timers
  ({ st with net := net1, armed_timers := armed }, [], none)

/-- `link_delete_handler` (lines 160-172). -/
def link_delete_handler (st : ControllerState) (src_dpid dst_dpid : Nat) :
    ControllerState × List Action × Option Err :=
  let net1 := if st.net.hasEdge src_dpid dst_dpid then st.net.removeEdge src_dpid dst_dpid
    else st.net
  let net2 := if net1.hasEdge dst_dpid src_dpid then net1.removeEdge dst_dpid src_dpid
    else net1
  ({ st with net := net2 }, [], none)

/-- `_state_change_handler` (lines 83-94), MAIN_DISPATCHER branch. -/
def state_change_main (st : ControllerState) (dpid : Nat) :
    ControllerState × List Action × Option Err :=
  if dpid ∈ st.datapaths then (st, [], none)
  else ({ st with datapaths := st.datapaths ++ [dpid] }, [], none)

/-- `_state_change_handler` (lines 83-94), DEAD_DISPATCHER branch. -/
def state_change_dead (st : ControllerState) (dpid : Nat) :
    ControllerState × List Action × Option Err :=
  ({ st with datapaths := st.datapaths.filter (fun x => decide (x ≠ dpid)) }, [], none)

/-- `_port_stats_reply_handler` (lines 200-254). -/
def port_stats_reply_handler (st : ControllerState) (dpid : Nat) (body : List PortStat)
    (curr_time : ℚ) : ControllerState × List Action × Option Err :=
  let r := process_port_stats st.net st.port_stats dpid curr_time body
  ({ st with net := r.1, port_stats := r.2.1 }, [], r.2.2)

/-- `_packet_in_handler` (lines 361-420): ignore LLDP, learn the source
MAC, then flood / direct output / path output with flow installation.
The packet-out is sent last, so a raise during path handling sends no
packet-out. -/
def packet_in_handler (st : ControllerState) (dpid in_port : Nat) (src dst : String)
    (is_lldp : Bool) : ControllerState × List Action × Option Err :=
  if is_lldp then (st, [], none)
  else
    let hosts1 := (src, (dpid, in_port)) :: st.hosts
    let st1 := { st with hosts := hosts1 }
    match lookupHost hosts1 dst with
    | none => (st1, [.packetOut dpid in_port OFPP_FLOOD], none)
    | some (dst_dpid, dst_port) =>
      if dpid = dst_dpid then (st1, [.packetOut dpid in_port dst_port], none)
      else
        match calculate_best_path st.net dpid dst_dpid with
        | .error e => (st1, [], some e)
        | .ok none => (st1, [.packetOut dpid in_port OFPP_FLOOD], none)
        | .ok (some path) =>
          if 2 ≤ path.length then
            match st.net.getEdge dpid (path.getD 1 0) with
            | none => (st1, [], some .keyError)
            | some ed =>
              let r := install_path_flows st.net st.datapaths src dst in_port dst_port path
              match r.2 with
              | some e => (st1, r.1, some e)
              | none => (st1, r.1 ++ [.packetOut dpid in_port ed.port], none)
          else (st1, [.packetOut dpid in_port OFPP_FLOOD], none)

/-- Inbound events consumed by the controller (§6 of the design). -/
inductive Event where
  | stateChangeMain (dpid : Nat)
  | stateChangeDead (dpid : Nat)
  | switchEnter (dpid : Nat)
  | switchLeave (dpid : Nat)
  | linkAdd (src_dpid dst_dpid src_port dst_port : Nat)
  | linkDelete (src_dpid dst_dpid : Nat)
  | portStatsReply (dpid : Nat) (body : List PortStat) (curr_time : ℚ)
  | packetIn (dpid in_port : Nat) (src dst : String) (is_lldp : Bool)
deriving DecidableEq

/-- Dispatch of one inbound event to its handler. -/
def handleEvent (st : ControllerState) : Event → ControllerState × List Action × Option Err
  | .stateChangeMain dpid => state_change_main st dpid
  | .stateChangeDead dpid => state_change_dead st dpid
  | .switchEnter dpid => switch_enter_handler st dpid
  | .switchLeave dpid => switch_leave_handler st dpid
  | .linkAdd a b pa pb => link_add_handler st a b pa pb
  | .linkDelete a b => link_delete_handler st a b
  | .portStatsReply dpid body t => port_stats_reply_handler st dpid body t
  | .packetIn dpid inp src dst lldp => packet_in_handler st dpid inp src dst lldp

/-- Body of `delayed_install` (lines 152-156) once the settle delay has
elapsed: consume one armed timer; if the one-shot flag is still unset,
run `_install_proactive_flows` and — only when it returns without
raising — set the flag (the assignment on line 156 is unreachable when
line 155 raises). -/
def timer_fire (st : ControllerState) : ControllerState × List Action :=
  let st0 := { st with armed_timers := st.armed_timers - 1 }
  if st0.proactive_flows_installed then (st0, [])
  else
    let r := install_proactive_flows st0
    let st1 := { r.1 with install_runs := r.1.install_runs + 1 }
    match r.2.2 with
    | none => ({ st1 with proactive_flows_installed := true }, r.2.1)
    | some _ => (st1, r.2.1)

/-- Reachable controller states: any interleaving of inbound events and
armed-timer firings, starting from the initial state. -/
inductive Reachable : ControllerState → Prop
  | init : Reachable initState
  | event (st : ControllerState) (e : Event) : Reachable st → Reachable (handleEvent st e).1
  | timer (st : ControllerState) : Reachable st → 0 < st.armed_timers →
      Reachable (timer_fire st).1

/-- Monotone-counter guard for a stats reply: every non-LOCAL entry's
counters are at least those of the sample stored for its key at the
moment the entry is processed (switch byte counters never reset). -/
def okEntries (stats : List ((Nat × Nat) × StatSample)) (dpid : Nat) (curr_time : ℚ) :
    List PortStat → Bool
  | [] => true
  | stat :: body =>
    if stat.port_no = OFPP_LOCAL then okEntries stats dpid curr_time body
    else
      match lookupStat stats (dpid, stat.port_no) with
      | some prev =>
        decide (prev.tx_bytes ≤ stat.tx_bytes ∧ prev.rx_bytes ≤ stat.rx_bytes) &&
          okEntries (((dpid, stat.port_no), ⟨stat.tx_bytes, stat.rx_bytes, curr_time⟩) :: stats)
            dpid curr_time body
      | none =>
        okEntries (((dpid, stat.port_no), ⟨stat.tx_bytes, stat.rx_bytes, curr_time⟩) :: stats)
          dpid curr_time body

/-- Guard selecting events whose stats replies have monotone counters. -/
def statsMonotone (st : ControllerState) : Event → Bool
  | .portStatsReply dpid body t => okEntries st.port_stats dpid t body
  | _ => true

/-- Recognizer of the packet-out action (the terminal forwarding action
of the packet-in pipeline). -/
def isPacketOut : Action → Bool
  | .packetOut _ _ _ => true
  | _ => false

/-- Per-position description of the rule `_install_path_flows` installs
(claim C5): position `i` of the path is skipped when absent from the
connected-switch set; otherwise its rule outputs to the destination's
attachment port at the last position, and to the egress port of the
edge toward the next path switch at every other position. -/
def ruleAt (g : DiGraph) (dps : List Nat) (src dst : String) (last_out_port : Nat)
    (path : List Nat) (i : Nat) : Option Action :=
  if path.getD i 0 ∈ dps then
    some (.flowMod (path.getD i 0) src dst
      (if i = path.length - 1 then last_out_port
       else ((g.getEdge (path.getD i 0) (path.getD (i + 1) 0)).map (·.port)).getD 0) 1)
  else none

/-- Reachability restricted to runs in which switch byte counters never
decrease between consecutive samples. -/
inductive ReachableOk : ControllerState → Prop
  | init : ReachableOk initState
  | event (st : ControllerState) (e : Event) : ReachableOk st → statsMonotone st e = true →
      ReachableOk (handleEvent st e).1
  | timer (st : ControllerState) : ReachableOk st → 0 < st.armed_timers →
      ReachableOk (timer_fire st).1

/-- Invariant of a frontier entry: the stored reversed path is nonempty,
ends (in walk order it starts) at the source `s`, and its hops are edges
of the graph. -/
def EntrySound (g : DiGraph) (s : Nat) (e : ℚ × List Nat) : Prop :=
  e.2 ≠ [] ∧ e.2.getLast? = some s ∧ List.Chain' (flip (EdgeStep g)) e.2

/-- Well-formed graph: distinct nodes, edges between present nodes.
Every graph reachable through the handlers satisfies this. -/
def WFGraph (g : DiGraph) : Prop :=
  g.nodes.Nodup ∧ ∀ e ∈ g.edges, e.src ∈ g.nodes ∧ e.dst ∈ g.nodes

/-- Total out-degree of the not-yet-visited nodes. -/
def outdegSum (g : DiGraph) (visited : List Nat) : Nat :=
  ((g.nodes.filter (fun v => decide (v ∉ visited))).map (fun v => (g.succs v).length)).sum

/-- Potential of a search configuration; it strictly decreases at every
iteration of `dijkstraLoop`. -/
def Phi (g : DiGraph) (visited : List Nat) (frontier : List (ℚ × List Nat)) : Nat :=
  frontier.length + outdegSum g visited

/-- Endpoint of a frontier entry. -/
def endp (e : ℚ × List Nat) : Nat := e.2.headD 0

/-- Strengthened invariant carried through the induction. -/
def EdgesOk (g : DiGraph) : Prop :=
  ∀ e ∈ g.edges, 1 ≤ e.data.weight ∧ e.data.weight ≤ 11 ∧ e.data.capacity = 100

/-- Per-event safety hypotheses: a stats reply's switch is a node of the
graph; for a (non-discovery) packet-in whose destination is known and
remote, its ingress switch and the looked-up destination switch are nodes
of the graph and no edge weight is negative (ruling out the
`ValueError("Contradictory paths found: negative weights?")` that
`bidirectional_dijkstra` raises on negative-weight graphs).  All other
events are unconditionally safe. -/
def eventSafe (st : ControllerState) : Event → Prop
  | .portStatsReply dpid _ _ => dpid ∈ st.net.nodes
  | .packetIn dpid in_port src dst is_lldp =>
      is_lldp = false →
      ∀ dd dp, lookupHost ((src, (dpid, in_port)) :: st.hosts) dst = some (dd, dp) →
        dpid ≠ dd → dpid ∈ st.net.nodes ∧ dd ∈ st.net.nodes ∧
          ∀ ed ∈ st.net.edges, 0 ≤ ed.data.weight
  | _ => True

instance {ε α : Type} [DecidableEq ε] [DecidableEq α] : DecidableEq (Except ε α)
  | .ok a, .ok b => if h : a = b then .isTrue (by rw [h]) else .isFalse (by simp [h])
  | .error a, .error b => if h : a = b then .isTrue (by rw [h]) else .isFalse (by simp [h])
  | .ok _, .error _ => .isFalse (by simp)
  | .error _, .ok _ => .isFalse (by simp)

/-! ### Basic lemmas about the graph model -/

theorem findEdge_some {l : List NxEdge} {u v : Nat} {e : NxEdge}
    (h : findEdge l u v = some e) : e ∈ l ∧ e.src = u ∧ e.dst = v := by
  induction l with
  | nil => simp [findEdge] at h
  | cons a as ih =>
    simp only [findEdge] at h
    split at h
    · rename_i hc
      cases h
      exact ⟨List.mem_cons_self _ _, hc.1, hc.2⟩
    · have := ih h
      exact ⟨List.mem_cons_of_mem _ this.1, this.2⟩

theorem findEdge_isSome_of_mem {l : List NxEdge} {e : NxEdge} (he : e ∈ l) :
    (findEdge l e.src e.dst).isSome = true := by
  induction l with
  | nil => simp at he
  | cons a as ih =>
    simp only [findEdge]
    split
    · simp
    · rename_i hc
      rcases List.mem_cons.mp he with h | h
      · subst h; simp at hc
      · exact ih h

theorem hasEdge_of_mem {g : DiGraph} {e : NxEdge} (he : e ∈ g.edges) :
    g.hasEdge e.src e.dst = true := by
  have h := findEdge_isSome_of_mem he
  simp only [DiGraph.hasEdge, DiGraph.getEdge]
  rcases Option.isSome_iff_exists.mp h with ⟨e', he'⟩
  simp [he']

theorem exists_mem_of_hasEdge {g : DiGraph} {u v : Nat} (h : g.hasEdge u v = true) :
    ∃ e ∈ g.edges, e.src = u ∧ e.dst = v := by
  simp only [DiGraph.hasEdge, DiGraph.getEdge] at h
  cases hfe : findEdge g.edges u v with
  | none => rw [hfe] at h; simp at h
  | some e => exact ⟨e, (findEdge_some hfe).1, (findEdge_some hfe).2⟩

theorem mem_succs {g : DiGraph} {u : Nat} {e : NxEdge} :
    e ∈ g.succs u ↔ e ∈ g.edges ∧ e.src = u := by
  simp [DiGraph.succs, List.mem_filter]

theorem hasEdge_of_mem_succs {g : DiGraph} {u : Nat} {e : NxEdge} (h : e ∈ g.succs u) :
    g.hasEdge u e.dst = true := by
  rcases mem_succs.mp h with ⟨hm, hs⟩
  have := hasEdge_of_mem hm
  rwa [hs] at this

/-! ### Lemmas about `popMin1` -/

theorem popMin1_perm (x : ℚ × List Nat) (xs : List (ℚ × List Nat)) :
    (x :: xs).Perm ((popMin1 x xs).1 :: (popMin1 x xs).2) := by
  induction xs generalizing x with
  | nil => simp [popMin1]
  | cons y ys ih =>
    simp only [popMin1]
    split
    · exact List.Perm.refl _
    · exact ((ih y).cons x).trans (List.Perm.swap _ _ _)

theorem popMin1_mem (x : ℚ × List Nat) (xs : List (ℚ × List Nat)) {a : ℚ × List Nat}
    (h : a ∈ (popMin1 x xs).1 :: (popMin1 x xs).2) : a ∈ x :: xs :=
  (popMin1_perm x xs).mem_iff.mpr h

theorem popMin1_length (x : ℚ × List Nat) (xs : List (ℚ × List Nat)) :
    (popMin1 x xs).2.length = xs.length := by
  have := (popMin1_perm x xs).length_eq
  simpa using this.symm

theorem popMin1_min (x : ℚ × List Nat) (xs : List (ℚ × List Nat)) :
    ∀ a ∈ x :: xs, (popMin1 x xs).1.1 ≤ a.1 := by
  induction xs generalizing x with
  | nil =>
    intro a ha
    rcases List.mem_singleton.mp ha with rfl
    simp [popMin1]
  | cons y ys ih =>
    intro a ha
    simp only [popMin1]
    split
    · rename_i hle
      rcases List.mem_cons.mp ha with rfl | ha2
      · exact le_refl _
      · exact le_trans hle (ih y a ha2)
    · rename_i hgt
      push_neg at hgt
      rcases List.mem_cons.mp ha with rfl | ha2
      · exact le_of_lt hgt
      · exact ih y a ha2

theorem lookupDist_none_iff (v : Nat) :
    ∀ dists : List (Nat × ℚ), lookupDist dists v = none ↔ v ∉ dists.map (·.1) := by
  intro dists
  induction dists with
  | nil => simp [lookupDist]
  | cons ud rest ih =>
    rcases ud with ⟨u, du⟩
    simp only [lookupDist, List.map_cons, List.mem_cons]
    split
    · rename_i h
      subst h
      simp
    · rename_i h
      simp [ih, h]

theorem lookupDist_some_mem :
    ∀ {dists : List (Nat × ℚ)} {v : Nat} {du : ℚ},
      lookupDist dists v = some du → (v, du) ∈ dists := by
  intro dists
  induction dists with
  | nil => intro v du h; cases h
  | cons ud rest ih =>
    intro v du h
    simp only [lookupDist] at h
    split at h
    · rename_i heq
      cases h
      subst heq
      exact List.mem_cons_self _ _
    · exact List.mem_cons_of_mem _ (ih h)

theorem relaxEdges_error_valueError {d : ℚ} {rp : List Nat} {dists : List (Nat × ℚ)} :
    ∀ {eds : List NxEdge} {e : NxErr},
      relaxEdges d rp dists eds = .error e → e = .valueError := by
  intro eds
  induction eds with
  | nil => intro e h; cases h
  | cons ed rest ih =>
    intro e h
    simp only [relaxEdges] at h
    split at h
    · split at h
      · cases h; rfl
      · exact ih h
    · rcases hrec : relaxEdges d rp dists rest with e2 | ps
      · rw [hrec] at h
        cases h
        exact ih hrec
      · rw [hrec] at h
        cases h

theorem relaxEdges_ok_mem {d : ℚ} {rp : List Nat} {dists : List (Nat × ℚ)} :
    ∀ {eds : List NxEdge} {pushes : List (ℚ × List Nat)},
      relaxEdges d rp dists eds = .ok pushes →
      ∀ x ∈ pushes, ∃ ed ∈ eds, x = (d + ed.data.weight, ed.dst :: rp) := by
  intro eds
  induction eds with
  | nil =>
    intro pushes h x hx
    cases h
    simp at hx
  | cons ed rest ih =>
    intro pushes h x hx
    simp only [relaxEdges] at h
    split at h
    · split at h
      · cases h
      · rcases ih h x hx with ⟨ed2, hed2, rfl⟩
        exact ⟨ed2, List.mem_cons_of_mem _ hed2, rfl⟩
    · rcases hrec : relaxEdges d rp dists rest with e | ps
      · rw [hrec] at h
        cases h
      · rw [hrec] at h
        cases h
        rcases List.mem_cons.mp hx with rfl | hx2
        · exact ⟨ed, List.mem_cons_self _ _, rfl⟩
        · rcases ih hrec x hx2 with ⟨ed2, hed2, rfl⟩
          exact ⟨ed2, List.mem_cons_of_mem _ hed2, rfl⟩

theorem relaxEdges_ok_length {d : ℚ} {rp : List Nat} {dists : List (Nat × ℚ)} :
    ∀ {eds : List NxEdge} {pushes : List (ℚ × List Nat)},
      relaxEdges d rp dists eds = .ok pushes → pushes.length ≤ eds.length := by
  intro eds
  induction eds with
  | nil =>
    intro pushes h
    cases h
    simp
  | cons ed rest ih =>
    intro pushes h
    simp only [relaxEdges] at h
    split at h
    · split at h
      · cases h
      · exact le_trans (ih h) (Nat.le_succ _)
    · rcases hrec : relaxEdges d rp dists rest with e | ps
      · rw [hrec] at h
        cases h
      · rw [hrec] at h
        cases h
        simpa using ih hrec

theorem relaxEdges_covered {d : ℚ} {rp : List Nat} {dists : List (Nat × ℚ)} :
    ∀ {eds : List NxEdge} {pushes : List (ℚ × List Nat)},
      relaxEdges d rp dists eds = .ok pushes →
      ∀ ed ∈ eds, ed.dst ∈ dists.map (·.1) ∨ (d + ed.data.weight, ed.dst :: rp) ∈ pushes := by
  intro eds
  induction eds with
  | nil => intro pushes h ed hed; simp at hed
  | cons ed0 rest ih =>
    intro pushes h ed hed
    simp only [relaxEdges] at h
    split at h
    · rename_i u_dist hlk
      split at h
      · cases h
      · rcases List.mem_cons.mp hed with rfl | hed2
        · left
          exact List.mem_map.mpr ⟨(ed.dst, u_dist), lookupDist_some_mem hlk, rfl⟩
        · exact ih h ed hed2
    · rename_i hlk
      rcases hrec : relaxEdges d rp dists rest with e | ps
      · rw [hrec] at h
        cases h
      · rw [hrec] at h
        cases h
        rcases List.mem_cons.mp hed with rfl | hed2
        · right
          exact List.mem_cons_self _ _
        · rcases ih hrec ed hed2 with hl | hr
          · exact Or.inl hl
          · exact Or.inr (List.mem_cons_of_mem _ hr)

theorem relaxEdges_no_error {d : ℚ} {rp : List Nat} {dists : List (Nat × ℚ)} :
    ∀ {eds : List NxEdge},
      (∀ ed ∈ eds, 0 ≤ ed.data.weight) →
      (∀ ud ∈ dists, ud.2 ≤ d) →
      ∃ pushes, relaxEdges d rp dists eds = .ok pushes := by
  intro eds
  induction eds with
  | nil => intro _ _; exact ⟨[], rfl⟩
  | cons ed rest ih =>
    intro hw hA
    have hwrest : ∀ e ∈ rest, 0 ≤ e.data.weight :=
      fun e he => hw e (List.mem_cons_of_mem _ he)
    rcases ih hwrest hA with ⟨ps, hps⟩
    simp only [relaxEdges]
    rcases hlk : lookupDist dists ed.dst with _ | u_dist
    · rw [hps]
      exact ⟨_, rfl⟩
    · have hle : u_dist ≤ d := hA _ (lookupDist_some_mem hlk)
      have hwed : 0 ≤ ed.data.weight := hw ed (List.mem_cons_self _ _)
      have hnlt : ¬ d + ed.data.weight < u_dist := by
        push_neg
        linarith
      refine ⟨ps, ?_⟩
      show (if d + ed.data.weight < u_dist then Except.error NxErr.valueError
        else relaxEdges d rp dists rest) = Except.ok ps
      rw [if_neg hnlt]
      exact hps

/-! ### Soundness of the Dijkstra model: returned lists are directed
paths from the source to the target -/

theorem head?_eq_headD {l : List Nat} (h : l ≠ []) : l.head? = some (l.headD 0) := by
  cases l with
  | nil => simp at h
  | cons a as => rfl

theorem getLast?_cons_ne {a : Nat} {l : List Nat} (h : l ≠ []) :
    (a :: l).getLast? = l.getLast? := by
  cases l with
  | nil => simp at h
  | cons b bs => exact List.getLast?_cons_cons

theorem dijkstraLoop_sound (g : DiGraph) (t s : Nat) :
    ∀ (fuel : Nat) (dists : List (Nat × ℚ)) (frontier : List (ℚ × List Nat)) (p : List Nat),
      (∀ e ∈ frontier, EntrySound g s e) →
      dijkstraLoop g t fuel dists frontier = .ok p →
      p.head? = some s ∧ p.getLast? = some t ∧ IsChain g p := by
  intro fuel
  induction fuel with
  | zero =>
    intro dists frontier p hfr h
    cases frontier with
    | nil => simp [dijkstraLoop] at h
    | cons f fs => simp [dijkstraLoop] at h
  | succ fuel ih =>
    intro dists frontier p hfr h
    cases frontier with
    | nil => simp [dijkstraLoop] at h
    | cons f fs =>
      rcases hpm : popMin1 f fs with ⟨m, rest⟩
      have hmem : ∀ a ∈ m :: rest, a ∈ f :: fs := by
        intro a ha
        have := popMin1_mem f fs (a := a)
        rw [hpm] at this
        exact this ha
      have hms : EntrySound g s m := hfr _ (hmem _ (List.mem_cons_self _ _))
      simp only [dijkstraLoop, hpm] at h
      by_cases hvis : (lookupDist dists (m.2.headD 0)).isSome = true
      · rw [if_pos hvis] at h
        exact ih dists rest p (fun e he => hfr _ (hmem _ (List.mem_cons_of_mem _ he))) h
      · rw [if_neg hvis] at h
        by_cases hvt : m.2.headD 0 = t
        · rw [if_pos hvt] at h
          cases h
          refine ⟨?_, ?_, ?_⟩
          · rw [List.head?_reverse]
            exact hms.2.1
          · rw [List.getLast?_reverse, head?_eq_headD hms.1, hvt]
          · exact List.chain'_reverse.mpr hms.2.2
        · rw [if_neg hvt] at h
          rcases hrel : relaxEdges m.1 m.2 ((m.2.headD 0, m.1) :: dists)
              (g.succs (m.2.headD 0)) with e | pushes
          · rw [hrel] at h
            cases h
          · rw [hrel] at h
            refine ih _ _ p ?_ h
            intro e he
            rcases List.mem_append.mp he with he | he
            · exact hfr _ (hmem _ (List.mem_cons_of_mem _ he))
            · rcases relaxEdges_ok_mem hrel e he with ⟨ed, hed, rfl⟩
              refine ⟨by simp, ?_, ?_⟩
              · simpa [getLast?_cons_ne hms.1] using hms.2.1
              · rw [List.chain'_cons']
                refine ⟨?_, hms.2.2⟩
                intro y hy
                rw [head?_eq_headD hms.1] at hy
                cases hy
                exact hasEdge_of_mem_succs hed

theorem nxShortestPath_sound {g : DiGraph} {s t : Nat} {p : List Nat}
    (h : nxShortestPath g s t = .ok p) :
    p.head? = some s ∧ p.getLast? = some t ∧ IsChain g p := by
  simp only [nxShortestPath] at h
  split at h
  · split at h
    · cases h
      rename_i hst
      exact ⟨rfl, by simp [hst], by simp [IsChain]⟩
    · rcases hd : dijkstraLoop g t (g.edges.length + 1) [] [(0, [s])] with e | q
      · rw [hd] at h; cases h
      · rw [hd] at h
        cases h
        refine dijkstraLoop_sound g t s _ _ _ _ ?_ hd
        intro e he
        rcases List.mem_singleton.mp he with rfl
        exact ⟨by simp, by simp, by simp⟩
  · cases h

theorem chain_reaches {g : DiGraph} :
    ∀ {p : List Nat} {a b : Nat}, IsChain g p → p.head? = some a → p.getLast? = some b →
      Reaches g a b := by
  intro p
  induction p with
  | nil => intro a b _ h; cases h
  | cons x l ih =>
    intro a b hch hh hl
    cases hh
    cases l with
    | nil =>
      cases hl
      exact Reaches.refl _
    | cons y l2 =>
      have h2 := List.chain'_cons.mp hch
      rw [List.getLast?_cons_cons] at hl
      exact Reaches.step h2.1 (ih h2.2 rfl hl)

theorem calc_ok_some_props {g : DiGraph} {s t : Nat} {p : List Nat}
    (hst : s ≠ t) (h : calculate_best_path g s t = .ok (some p)) :
    p.head? = some s ∧ p.getLast? = some t ∧ IsChain g p ∧ 2 ≤ p.length := by
  simp only [calculate_best_path, if_neg hst] at h
  rcases hn : nxShortestPath g s t with q | q
  · rw [hn] at h
    cases q <;> simp at h
  · rw [hn] at h
    cases h
    have hp := nxShortestPath_sound hn
    refine ⟨hp.1, hp.2.1, hp.2.2, ?_⟩
    match p, hp with
    | [], ⟨h1, _, _⟩ => cases h1
    | [x], ⟨h1, h2, _⟩ =>
      cases h1; cases h2
      exact absurd rfl hst
    | x :: y :: l, _ => simp

theorem dijkstraLoop_no_nodeNotFound (g : DiGraph) (t : Nat) :
    ∀ (fuel : Nat) (dists : List (Nat × ℚ)) (frontier : List (ℚ × List Nat)),
      dijkstraLoop g t fuel dists frontier ≠ .error .nodeNotFound := by
  intro fuel
  induction fuel with
  | zero =>
    intro dists frontier
    cases frontier <;> simp [dijkstraLoop]
  | succ fuel ih =>
    intro dists frontier
    cases frontier with
    | nil => simp [dijkstraLoop]
    | cons f fs =>
      rcases hpm : popMin1 f fs with ⟨m, rest⟩
      simp only [dijkstraLoop, hpm]
      split
      · exact ih _ _
      · split
        · simp
        · rcases hrel : relaxEdges m.1 m.2 ((m.2.headD 0, m.1) :: dists)
              (g.succs (m.2.headD 0)) with e | pushes
          · have := relaxEdges_error_valueError hrel
            subst this
            simp
          · exact ih _ _

theorem dijkstraLoop_no_valueError (g : DiGraph) (t : Nat)
    (hw : ∀ e ∈ g.edges, 0 ≤ e.data.weight) :
    ∀ (fuel : Nat) (dists : List (Nat × ℚ)) (frontier : List (ℚ × List Nat)),
      (∀ ud ∈ dists, ∀ e ∈ frontier, ud.2 ≤ e.1) →
      dijkstraLoop g t fuel dists frontier ≠ .error .valueError := by
  intro fuel
  induction fuel with
  | zero =>
    intro dists frontier _
    cases frontier <;> simp [dijkstraLoop]
  | succ fuel ih =>
    intro dists frontier hA
    cases frontier with
    | nil => simp [dijkstraLoop]
    | cons f fs =>
      rcases hpm : popMin1 f fs with ⟨m, rest⟩
      have hmem : ∀ a ∈ m :: rest, a ∈ f :: fs := by
        intro a ha
        have := popMin1_mem f fs (a := a)
        rw [hpm] at this
        exact this ha
      have hmm : m ∈ f :: fs := hmem _ (List.mem_cons_self _ _)
      have hmin : ∀ a ∈ f :: fs, m.1 ≤ a.1 := by
        intro a ha
        have := popMin1_min f fs a ha
        rw [hpm] at this
        exact this
      simp only [dijkstraLoop, hpm]
      split
      · refine ih _ _ ?_
        intro ud hud e he
        exact hA ud hud e (hmem _ (List.mem_cons_of_mem _ he))
      · split
        · simp
        · have hAm : ∀ ud ∈ (m.2.headD 0, m.1) :: dists, ud.2 ≤ m.1 := by
            intro ud hud
            rcases List.mem_cons.mp hud with rfl | hud2
            · exact le_refl _
            · exact hA ud hud2 m hmm
          have hwsuccs : ∀ ed ∈ g.succs (m.2.headD 0), 0 ≤ ed.data.weight :=
            fun ed hed => hw ed (mem_succs.mp hed).1
          rcases relaxEdges_no_error hwsuccs hAm with ⟨pushes, hps⟩
          rw [hps]
          refine ih _ _ ?_
          intro ud hud e he
          rcases List.mem_append.mp he with he | he
          · rcases List.mem_cons.mp hud with rfl | hud2
            · exact hmin e (hmem _ (List.mem_cons_of_mem _ he))
            · exact hA ud hud2 e (hmem _ (List.mem_cons_of_mem _ he))
          · rcases relaxEdges_ok_mem hps e he with ⟨ed, hed, rfl⟩
            have hwded : 0 ≤ ed.data.weight := hwsuccs ed hed
            rcases List.mem_cons.mp hud with rfl | hud2
            · simp only
              linarith
            · have := hA ud hud2 m hmm
              simp only
              linarith

theorem calc_none_of_not_reaches {g : DiGraph} {s t : Nat}
    (hs : s ∈ g.nodes) (ht : t ∈ g.nodes) (hst : s ≠ t)
    (hw : ∀ e ∈ g.edges, 0 ≤ e.data.weight) (hnr : ¬ Reaches g s t) :
    calculate_best_path g s t = .ok none := by
  simp only [calculate_best_path, if_neg hst, nxShortestPath, if_pos (And.intro hs ht),
    if_neg hst]
  rcases hd : dijkstraLoop g t (g.edges.length + 1) [] [(0, [s])] with e | q
  · cases e with
    | nodeNotFound => exact absurd hd (dijkstraLoop_no_nodeNotFound g t _ _ _)
    | noPath => rfl
    | valueError =>
      refine absurd hd (dijkstraLoop_no_valueError g t hw _ _ _ ?_)
      intro ud hud
      simp at hud
  · exfalso
    have hq : q.head? = some s ∧ q.getLast? = some t ∧ IsChain g q := by
      refine dijkstraLoop_sound g t s _ _ _ _ ?_ hd
      intro e he
      rcases List.mem_singleton.mp he with rfl
      exact ⟨by simp, by simp, by simp⟩
    exact hnr (chain_reaches hq.2.2 hq.1 hq.2.1)

theorem install_snd_none (g : DiGraph) (dps : List Nat) (a b : String) (ip op : Nat) :
    ∀ path, IsChain g path → (install_path_flows g dps a b ip op path).2 = none := by
  intro path
  induction path with
  | nil => intro _; simp [install_path_flows]
  | cons d rest ih =>
    intro hch
    cases rest with
    | nil =>
      simp only [install_path_flows]
      split <;> rfl
    | cons d2 rest2 =>
      have h2 := List.chain'_cons.mp hch
      have hed : ∃ ed, g.getEdge d d2 = some ed := by
        have := h2.1
        simp only [EdgeStep, DiGraph.hasEdge] at this
        exact Option.isSome_iff_exists.mp this
      rcases hed with ⟨ed, hed⟩
      simp only [install_path_flows]
      split
      · rw [hed]
        exact ih h2.2
      · exact ih h2.2

/-! ### Completeness of the Dijkstra model: when the target is
reachable, the search finds a path before the fuel runs out -/

theorem sum_filter_cons_notmem (f : Nat → Nat) (v : Nat) (visited : List Nat) :
    ∀ ns : List Nat, ns.Nodup → v ∈ ns → v ∉ visited →
      ((ns.filter (fun x => decide (x ∉ v :: visited))).map f).sum + f v =
      ((ns.filter (fun x => decide (x ∉ visited))).map f).sum := by
  intro ns
  induction ns with
  | nil =>
    intro _ hv
    simp at hv
  | cons a as ih =>
    intro hnd hv hnv
    have hnas := (List.nodup_cons.mp hnd).1
    rcases List.mem_cons.mp hv with rfl | hv'
    · have hfe : as.filter (fun x => decide (x ∉ v :: visited)) =
          as.filter (fun x => decide (x ∉ visited)) := by
        apply List.filter_congr
        intro x hx
        have hxv : x ≠ v := fun h => hnas (h ▸ hx)
        simp [List.mem_cons, hxv]
      rw [List.filter_cons, List.filter_cons]
      rw [if_neg (by simp : ¬((decide (v ∉ v :: visited)) = true)),
        if_pos (by simp [hnv] : (decide (v ∉ visited)) = true)]
      rw [hfe]
      simp [Nat.add_comm]
    · have hav : a ≠ v := fun h => hnas (h ▸ hv')
      have hiff : (a ∉ v :: visited) ↔ (a ∉ visited) := by simp [List.mem_cons, hav]
      by_cases hmem : a ∈ visited
      · have h1 : (decide (a ∉ v :: visited)) = false := by simp [hiff, hmem]
        have h2 : (decide (a ∉ visited)) = false := by simp [hmem]
        simp only [List.filter_cons, h1, h2]
        simp only [Bool.false_eq_true, if_false]
        exact ih (List.nodup_cons.mp hnd).2 hv' hnv
      · have h1 : (decide (a ∉ v :: visited)) = true := by simp [hiff, hmem, hav]
        have h2 : (decide (a ∉ visited)) = true := by simp [hmem]
        simp only [List.filter_cons, h1, h2, if_true, List.map_cons, List.sum_cons]
        have := ih (List.nodup_cons.mp hnd).2 hv' hnv
        omega

theorem outdegSum_cons {g : DiGraph} {v : Nat} {visited : List Nat}
    (hnd : g.nodes.Nodup) (hv : v ∈ g.nodes) (hnv : v ∉ visited) :
    outdegSum g (v :: visited) + (g.succs v).length = outdegSum g visited :=
  sum_filter_cons_notmem _ v visited g.nodes hnd hv hnv

theorem length_filter_split {α : Type} (p : α → Bool) :
    ∀ l : List α, (l.filter p).length + (l.filter (fun x => !(p x))).length = l.length := by
  intro l
  induction l with
  | nil => simp
  | cons a as ih =>
    by_cases h : p a = true
    · simp [List.filter_cons, h]
      omega
    · simp only [List.filter_cons, h, Bool.not_eq_true] at *
      simp [List.filter_cons, h]
      omega

theorem sum_outdeg_le : ∀ (ns : List Nat) (edges : List NxEdge), ns.Nodup →
    (ns.map (fun v => (edges.filter (fun e => decide (e.src = v))).length)).sum ≤
      edges.length := by
  intro ns
  induction ns with
  | nil =>
    intro edges _
    simp
  | cons a as ih =>
    intro edges hnd
    simp only [List.map_cons, List.sum_cons]
    have hnas := (List.nodup_cons.mp hnd).1
    have hmapeq : as.map (fun v => (edges.filter (fun e => decide (e.src = v))).length) =
        as.map (fun v =>
          ((edges.filter (fun e => !(decide (e.src = a)))).filter
            (fun e => decide (e.src = v))).length) := by
      apply List.map_congr_left
      intro v hv
      have hva : v ≠ a := fun h => hnas (h ▸ hv)
      congr 1
      rw [List.filter_filter]
      apply List.filter_congr
      intro e _
      by_cases h : e.src = v
      · simp [h, hva]
      · simp [h]
    rw [hmapeq]
    have h1 := ih (edges.filter (fun e => !(decide (e.src = a)))) (List.nodup_cons.mp hnd).2
    have h2 := length_filter_split (fun e => decide (e.src = a)) edges
    omega

theorem visited_closed {g : DiGraph} {visited : List Nat}
    (hK : ∀ e ∈ g.edges, e.src ∈ visited → e.dst ∈ visited) :
    ∀ {a b : Nat}, Reaches g a b → a ∈ visited → b ∈ visited := by
  intro a b h
  induction h with
  | refl => exact id
  | step hE _ ih =>
    intro ha
    rcases exists_mem_of_hasEdge hE with ⟨e, he, hs, hd⟩
    exact ih (hd ▸ hK e he (hs ▸ ha))

theorem dijkstraLoop_complete (g : DiGraph) (s t : Nat) (hwf : WFGraph g)
    (hw : ∀ e ∈ g.edges, 0 ≤ e.data.weight) (hR : Reaches g s t) :
    ∀ (fuel : Nat) (dists : List (Nat × ℚ)) (frontier : List (ℚ × List Nat)),
      Phi g (dists.map (·.1)) frontier ≤ fuel →
      (∀ e ∈ frontier, e.2 ≠ [] ∧ endp e ∈ g.nodes) →
      (∀ ud ∈ dists, ∀ e ∈ frontier, ud.2 ≤ e.1) →
      (s ∈ dists.map (·.1) ∨ ∃ e ∈ frontier, endp e = s) →
      (∀ ed ∈ g.edges, ed.src ∈ dists.map (·.1) →
        ed.dst ∈ dists.map (·.1) ∨ ∃ e ∈ frontier, endp e = ed.dst) →
      t ∉ dists.map (·.1) →
      ∃ p, dijkstraLoop g t fuel dists frontier = .ok p := by
  intro fuel
  induction fuel with
  | zero =>
    intro dists frontier hPhi hfr hA hJ hK ht
    cases frontier with
    | nil =>
      exfalso
      have hcl : ∀ e ∈ g.edges, e.src ∈ dists.map (·.1) → e.dst ∈ dists.map (·.1) := by
        intro e he hs
        rcases hK e he hs with h | ⟨x, hx, _⟩
        · exact h
        · simp at hx
      rcases hJ with hJ | ⟨x, hx, _⟩
      · exact ht (visited_closed hcl hR hJ)
      · simp at hx
    | cons f fs =>
      exfalso
      simp [Phi] at hPhi
  | succ fuel ih =>
    intro dists frontier hPhi hfr hA hJ hK ht
    cases frontier with
    | nil =>
      exfalso
      have hcl : ∀ e ∈ g.edges, e.src ∈ dists.map (·.1) → e.dst ∈ dists.map (·.1) := by
        intro e he hs
        rcases hK e he hs with h | ⟨x, hx, _⟩
        · exact h
        · simp at hx
      rcases hJ with hJ | ⟨x, hx, _⟩
      · exact ht (visited_closed hcl hR hJ)
      · simp at hx
    | cons f fs =>
      rcases hpm : popMin1 f fs with ⟨m, rest⟩
      have hperm : (f :: fs).Perm (m :: rest) := by
        have := popMin1_perm f fs
        rw [hpm] at this
        exact this
      have hrl : rest.length = fs.length := by
        have := hperm.length_eq
        simpa using this.symm
      have hmm : m ∈ f :: fs := hperm.mem_iff.mpr (List.mem_cons_self _ _)
      have hmin : ∀ a ∈ f :: fs, m.1 ≤ a.1 := by
        intro a ha
        have := popMin1_min f fs a ha
        rw [hpm] at this
        exact this
      have hfr2 : ∀ e ∈ m :: rest, e.2 ≠ [] ∧ endp e ∈ g.nodes :=
        fun e he => hfr e (hperm.mem_iff.mpr he)
      simp only [dijkstraLoop, hpm]
      by_cases hvis : (lookupDist dists (m.2.headD 0)).isSome = true
      · rw [if_pos hvis]
        have hvk : m.2.headD 0 ∈ dists.map (·.1) := by
          by_contra hnk
          rw [(lookupDist_none_iff _ dists).mpr hnk] at hvis
          simp at hvis
        apply ih dists rest
        · simp only [Phi] at hPhi ⊢
          simp only [List.length_cons] at hPhi
          omega
        · exact fun e he => hfr2 e (List.mem_cons_of_mem _ he)
        · intro ud hud e he
          exact hA ud hud e (hperm.mem_iff.mpr (List.mem_cons_of_mem _ he))
        · rcases hJ with hJ | ⟨x, hx, hxs⟩
          · exact Or.inl hJ
          · rcases List.mem_cons.mp (hperm.mem_iff.mp hx) with rfl | hx2
            · exact Or.inl (hxs ▸ hvk)
            · exact Or.inr ⟨x, hx2, hxs⟩
        · intro ed hed hsrc
          rcases hK ed hed hsrc with h | ⟨x, hx, hxs⟩
          · exact Or.inl h
          · rcases List.mem_cons.mp (hperm.mem_iff.mp hx) with rfl | hx2
            · exact Or.inl (hxs ▸ hvk)
            · exact Or.inr ⟨x, hx2, hxs⟩
        · exact ht
      · rw [if_neg hvis]
        have hnone : lookupDist dists (m.2.headD 0) = none := by
          cases hl : lookupDist dists (m.2.headD 0) with
          | none => rfl
          | some d =>
            rw [hl] at hvis
            simp at hvis
        have hnk : m.2.headD 0 ∉ dists.map (·.1) := (lookupDist_none_iff _ dists).mp hnone
        by_cases hvt : m.2.headD 0 = t
        · rw [if_pos hvt]
          exact ⟨m.2.reverse, rfl⟩
        · rw [if_neg hvt]
          have hm := hfr2 m (List.mem_cons_self _ _)
          have hAm : ∀ ud ∈ (m.2.headD 0, m.1) :: dists, ud.2 ≤ m.1 := by
            intro ud hud
            rcases List.mem_cons.mp hud with rfl | hud2
            · exact le_refl _
            · exact hA ud hud2 m hmm
          have hwsuccs : ∀ ed ∈ g.succs (m.2.headD 0), 0 ≤ ed.data.weight :=
            fun ed hed => hw ed (mem_succs.mp hed).1
          rcases relaxEdges_no_error hwsuccs hAm with ⟨pushes, hps⟩
          rw [hps]
          apply ih ((m.2.headD 0, m.1) :: dists) (rest ++ pushes)
          · simp only [Phi, List.length_append, List.map_cons]
            have hod := outdegSum_cons (g := g) hwf.1 hm.2 hnk
            have hlen := relaxEdges_ok_length hps
            simp only [endp] at hod
            simp only [Phi, List.length_cons] at hPhi
            simp only [DiGraph.succs] at hod hlen ⊢
            omega
          · intro e he
            rcases List.mem_append.mp he with he | he
            · exact hfr2 e (List.mem_cons_of_mem _ he)
            · rcases relaxEdges_ok_mem hps e he with ⟨ed, hed, rfl⟩
              exact ⟨by simp, (hwf.2 ed (mem_succs.mp hed).1).2⟩
          · intro ud hud e he
            rcases List.mem_append.mp he with he | he
            · rcases List.mem_cons.mp hud with rfl | hud2
              · exact hmin e (hperm.mem_iff.mpr (List.mem_cons_of_mem _ he))
              · exact hA ud hud2 e (hperm.mem_iff.mpr (List.mem_cons_of_mem _ he))
            · rcases relaxEdges_ok_mem hps e he with ⟨ed, hed, rfl⟩
              have hwded : 0 ≤ ed.data.weight := hwsuccs ed hed
              rcases List.mem_cons.mp hud with rfl | hud2
              · simp only
                linarith
              · have := hA ud hud2 m hmm
                simp only
                linarith
          · simp only [List.map_cons]
            rcases hJ with hJ | ⟨x, hx, hxs⟩
            · exact Or.inl (List.mem_cons_of_mem _ hJ)
            · rcases List.mem_cons.mp (hperm.mem_iff.mp hx) with rfl | hx2
              · exact Or.inl (hxs ▸ List.mem_cons_self _ _)
              · exact Or.inr ⟨x, List.mem_append_left _ hx2, hxs⟩
          · intro ed hed hsrc
            simp only [List.map_cons] at hsrc ⊢
            rcases List.mem_cons.mp hsrc with hsv | hsv
            · have hedm : ed ∈ g.succs (m.2.headD 0) := mem_succs.mpr ⟨hed, hsv⟩
              rcases relaxEdges_covered hps ed hedm with hin | hpush
              · refine Or.inl ?_
                simpa using hin
              · exact Or.inr ⟨(m.1 + ed.data.weight, ed.dst :: m.2),
                  List.mem_append_right _ hpush, rfl⟩
            · rcases hK ed hed hsv with h | ⟨x, hx, hxs⟩
              · exact Or.inl (List.mem_cons_of_mem _ h)
              · rcases List.mem_cons.mp (hperm.mem_iff.mp hx) with rfl | hx2
                · exact Or.inl (hxs ▸ List.mem_cons_self _ _)
                · exact Or.inr ⟨x, List.mem_append_left _ hx2, hxs⟩
          · simp only [List.map_cons]
            intro hmem
            rcases List.mem_cons.mp hmem with h | h
            · exact hvt h.symm
            · exact ht h

theorem calc_some_of_reaches {g : DiGraph} {s t : Nat} (hwf : WFGraph g)
    (hs : s ∈ g.nodes) (ht : t ∈ g.nodes) (hst : s ≠ t)
    (hw : ∀ e ∈ g.edges, 0 ≤ e.data.weight) (hR : Reaches g s t) :
    ∃ p, calculate_best_path g s t = .ok (some p) := by
  have hloop : ∃ p, dijkstraLoop g t (g.edges.length + 1) [] [(0, [s])] = .ok p := by
    apply dijkstraLoop_complete g s t hwf hw hR
    · have h1 : outdegSum g [] ≤ g.edges.length := by
        simp only [outdegSum]
        have : g.nodes.filter (fun v => decide (v ∉ ([] : List Nat))) = g.nodes := by
          simp
        rw [this]
        exact sum_outdeg_le g.nodes g.edges hwf.1
      simp only [Phi, List.length_singleton, List.map_nil]
      omega
    · intro e he
      rcases List.mem_singleton.mp he with rfl
      exact ⟨by simp, by simpa [endp] using hs⟩
    · intro ud hud
      simp at hud
    · exact Or.inr ⟨(0, [s]), List.mem_singleton_self _, rfl⟩
    · intro ed _ h
      simp at h
    · simp
  rcases hloop with ⟨p, hp⟩
  refine ⟨p, ?_⟩
  simp [calculate_best_path, if_neg hst, nxShortestPath, if_pos (And.intro hs ht),
    if_neg hst, hp]

/-! ### Preservation of graph well-formedness by every handler -/

theorem mem_nodes_addNode {g : DiGraph} {x : Nat} (n : Nat) (h : x ∈ g.nodes) :
    x ∈ (g.addNode n).nodes := by
  simp only [DiGraph.addNode]
  split
  · exact h
  · exact List.mem_append_left _ h

theorem self_mem_addNode (g : DiGraph) (n : Nat) : n ∈ (g.addNode n).nodes := by
  simp only [DiGraph.addNode]
  split
  · assumption
  · simp

theorem edges_addNode (g : DiGraph) (n : Nat) : (g.addNode n).edges = g.edges := by
  simp only [DiGraph.addNode]
  split <;> rfl

theorem wf_addNode {g : DiGraph} (h : WFGraph g) (n : Nat) : WFGraph (g.addNode n) := by
  constructor
  · simp only [DiGraph.addNode]
    split
    · exact h.1
    · rename_i hn
      simp [List.nodup_append, h.1, hn]
  · rw [edges_addNode]
    intro e he
    exact ⟨mem_nodes_addNode n (h.2 e he).1, mem_nodes_addNode n (h.2 e he).2⟩

theorem mem_replaceEdge {l : List NxEdge} {u v : Nat} {d : EdgeData} {x : NxEdge}
    (h : x ∈ replaceEdge l u v d) : x ∈ l ∨ (x.src = u ∧ x.dst = v ∧ x.data = d) := by
  induction l with
  | nil => simp [replaceEdge] at h
  | cons a as ih =>
    simp only [replaceEdge] at h
    split at h
    · rename_i hc
      rcases List.mem_cons.mp h with rfl | hx
      · exact Or.inr ⟨hc.1, hc.2, rfl⟩
      · exact Or.inl (List.mem_cons_of_mem _ hx)
    · rcases List.mem_cons.mp h with rfl | hx
      · exact Or.inl (List.mem_cons_self _ _)
      · rcases ih hx with h2 | h2
        · exact Or.inl (List.mem_cons_of_mem _ h2)
        · exact Or.inr h2

theorem nodes_addEdge (g : DiGraph) (u v : Nat) (d : EdgeData) :
    (g.addEdge u v d).nodes = ((g.addNode u).addNode v).nodes := by
  simp only [DiGraph.addEdge]
  split <;> rfl

theorem wf_addEdge {g : DiGraph} (h : WFGraph g) (u v : Nat) (d : EdgeData) :
    WFGraph (g.addEdge u v d) := by
  have h1 : WFGraph ((g.addNode u).addNode v) := wf_addNode (wf_addNode h u) v
  have hu : u ∈ ((g.addNode u).addNode v).nodes :=
    mem_nodes_addNode v (self_mem_addNode g u)
  have hv : v ∈ ((g.addNode u).addNode v).nodes := self_mem_addNode _ v
  constructor
  · rw [nodes_addEdge]
    exact h1.1
  · intro e he
    rw [nodes_addEdge]
    simp only [DiGraph.addEdge] at he
    split at he
    · simp only at he
      rcases mem_replaceEdge he with h2 | h2
      · rw [edges_addNode, edges_addNode] at h2
        exact ⟨mem_nodes_addNode v (mem_nodes_addNode u (h.2 e h2).1),
          mem_nodes_addNode v (mem_nodes_addNode u (h.2 e h2).2)⟩
      · rw [h2.1, h2.2.1]
        exact ⟨hu, hv⟩
    · simp only at he
      rcases List.mem_append.mp he with h2 | h2
      · rw [edges_addNode, edges_addNode] at h2
        exact ⟨mem_nodes_addNode v (mem_nodes_addNode u (h.2 e h2).1),
          mem_nodes_addNode v (mem_nodes_addNode u (h.2 e h2).2)⟩
      · rcases List.mem_singleton.mp h2 with rfl
        exact ⟨hu, hv⟩

theorem wf_removeNode {g : DiGraph} (h : WFGraph g) (n : Nat) : WFGraph (g.removeNode n) := by
  constructor
  · exact h.1.filter _
  · intro e he
    simp only [DiGraph.removeNode, List.mem_filter, decide_eq_true_eq] at he ⊢
    exact ⟨⟨(h.2 e he.1).1, he.2.1⟩, ⟨(h.2 e he.1).2, he.2.2⟩⟩

theorem wf_removeEdge {g : DiGraph} (h : WFGraph g) (u v : Nat) :
    WFGraph (g.removeEdge u v) := by
  constructor
  · exact h.1
  · intro e he
    simp only [DiGraph.removeEdge, List.mem_filter] at he
    exact h.2 e he.1

theorem nodes_update_edge_weights (g : DiGraph) (dpid port_no : Nat) (T : ℚ) :
    (update_edge_weights g dpid port_no T).nodes = g.nodes := rfl

theorem mem_update_edge_weights {g : DiGraph} {dpid port_no : Nat} {T : ℚ} {e : NxEdge}
    (he : e ∈ (update_edge_weights g dpid port_no T).edges) :
    ∃ e0 ∈ g.edges, e.src = e0.src ∧ e.dst = e0.dst ∧
      (e = e0 ∨ e.data = { e0.data with
        weight := 1 + min (T / e0.data.capacity) 1 * 10 }) := by
  simp only [update_edge_weights, List.mem_map] at he
  rcases he with ⟨e0, he0, rfl⟩
  refine ⟨e0, he0, ?_⟩
  split
  · exact ⟨rfl, rfl, Or.inr rfl⟩
  · exact ⟨rfl, rfl, Or.inl rfl⟩

theorem wf_update_edge_weights {g : DiGraph} (h : WFGraph g) (dpid port_no : Nat) (T : ℚ) :
    WFGraph (update_edge_weights g dpid port_no T) := by
  constructor
  · exact h.1
  · intro e he
    rcases mem_update_edge_weights he with ⟨e0, he0, hs, hd, _⟩
    rw [nodes_update_edge_weights, hs, hd]
    exact h.2 e0 he0

theorem process_nodes_eq (dpid : Nat) (curr_time : ℚ) :
    ∀ (body : List PortStat) (g : DiGraph) (stats : List ((Nat × Nat) × StatSample)),
      (process_port_stats g stats dpid curr_time body).1.nodes = g.nodes := by
  intro body
  induction body with
  | nil => intro g stats; rfl
  | cons stat rest ih =>
    intro g stats
    simp only [process_port_stats]
    split
    · exact ih g stats
    · split
      · split
        · split
          · rw [ih]
            rfl
          · rfl
        · exact ih g _
      · exact ih g _

theorem wf_process {dpid : Nat} {curr_time : ℚ} :
    ∀ {body : List PortStat} {g : DiGraph} {stats : List ((Nat × Nat) × StatSample)},
      WFGraph g → WFGraph (process_port_stats g stats dpid curr_time body).1 := by
  intro body
  induction body with
  | nil => intro g stats h; exact h
  | cons stat rest ih =>
    intro g stats h
    simp only [process_port_stats]
    split
    · exact ih h
    · split
      · split
        · split
          · exact ih (wf_update_edge_weights h _ _ _)
          · exact h
        · exact ih h
      · exact ih h

theorem wf_init : WFGraph DiGraph.empty := by
  constructor
  · simp [DiGraph.empty]
  · intro e he
    simp [DiGraph.empty] at he

theorem timer_net_eq (st : ControllerState) : (timer_fire st).1.net = st.net := by
  simp only [timer_fire, install_proactive_flows]
  split
  · rfl
  · split <;> rfl

theorem wf_handleEvent {st : ControllerState} (h : WFGraph st.net) (e : Event) :
    WFGraph (handleEvent st e).1.net := by
  cases e with
  | stateChangeMain dpid =>
    simp only [handleEvent, state_change_main]
    split <;> exact h
  | stateChangeDead dpid => exact h
  | switchEnter dpid => exact wf_addNode h dpid
  | switchLeave dpid =>
    simp only [handleEvent, switch_leave_handler]
    split
    · exact wf_removeNode h dpid
    · exact h
  | linkAdd a b pa pb => exact wf_addEdge (wf_addEdge h a b _) b a _
  | linkDelete a b =>
    simp only [handleEvent, link_delete_handler]
    split
    · split
      · exact wf_removeEdge (wf_removeEdge h a b) b a
      · exact wf_removeEdge h a b
    · split
      · exact wf_removeEdge h b a
      · exact h
  | portStatsReply dpid body t => exact wf_process h
  | packetIn dpid inp src dst lldp =>
    simp only [handleEvent, packet_in_handler]
    split
    · exact h
    · split
      · exact h
      · split
        · exact h
        · split
          · exact h
          · exact h
          · split
            · split
              · exact h
              · split <;> exact h
            · exact h

theorem reachable_wf {st : ControllerState} (h : Reachable st) : WFGraph st.net := by
  induction h with
  | init => exact wf_init
  | event st e _ ih => exact wf_handleEvent ih e
  | timer st _ _ ih => rw [timer_net_eq]; exact ih

/-! ### Error-freedom of the handlers under the node-membership
hypotheses -/

theorem process_no_err (dpid : Nat) (curr_time : ℚ) :
    ∀ (body : List PortStat) (g : DiGraph) (stats : List ((Nat × Nat) × StatSample)),
      dpid ∈ g.nodes →
      (process_port_stats g stats dpid curr_time body).2.2 = none := by
  intro body
  induction body with
  | nil => intro g stats _; rfl
  | cons stat rest ih =>
    intro g stats hg
    simp only [process_port_stats]
    split
    · exact ih g stats hg
    · split
      · split
        · apply ih
          rw [nodes_update_edge_weights]
          exact hg
        · exact ih g _ hg
      · exact ih g _ hg

theorem calc_not_error {g : DiGraph} {s t : Nat} (hs : s ∈ g.nodes) (ht : t ∈ g.nodes)
    (hw : ∀ e ∈ g.edges, 0 ≤ e.data.weight) :
    ∃ o, calculate_best_path g s t = .ok o := by
  by_cases hst : s = t
  · subst hst
    exact ⟨some [s], by simp [calculate_best_path]⟩
  · simp only [calculate_best_path, if_neg hst, nxShortestPath, if_pos (And.intro hs ht),
      if_neg hst]
    rcases hd : dijkstraLoop g t (g.edges.length + 1) [] [(0, [s])] with e | p
    · cases e with
      | nodeNotFound => exact absurd hd (dijkstraLoop_no_nodeNotFound g t _ _ _)
      | noPath => exact ⟨none, rfl⟩
      | valueError =>
        refine absurd hd (dijkstraLoop_no_valueError g t hw _ _ _ ?_)
        intro ud hud
        simp at hud
    · exact ⟨some p, rfl⟩

theorem path_first_edge {g : DiGraph} {p : List Nat} {s : Nat}
    (hh : p.head? = some s) (hch : IsChain g p) (hl : 2 ≤ p.length) :
    ∃ ed, g.getEdge s (p.getD 1 0) = some ed := by
  match p, hh, hch, hl with
  | a :: b :: l, hh, hch, _ =>
    cases hh
    have h2 := (List.chain'_cons.mp hch).1
    simp only [EdgeStep, DiGraph.hasEdge] at h2
    simpa [List.getD_cons_succ, List.getD_cons_zero] using Option.isSome_iff_exists.mp h2

theorem packet_in_no_err (st : ControllerState) (dpid in_port : Nat) (src dst : String)
    (hsafe : ∀ dd dp, lookupHost ((src, (dpid, in_port)) :: st.hosts) dst = some (dd, dp) →
      dpid ≠ dd → dpid ∈ st.net.nodes ∧ dd ∈ st.net.nodes ∧
        ∀ ed ∈ st.net.edges, 0 ≤ ed.data.weight) :
    (packet_in_handler st dpid in_port src dst false).2.2 = none := by
  simp only [packet_in_handler, if_neg (Bool.false_ne_true)]
  cases hlk : lookupHost ((src, (dpid, in_port)) :: st.hosts) dst with
  | none => rfl
  | some loc =>
    rcases loc with ⟨dd, dp⟩
    simp only
    by_cases hdd : dpid = dd
    · rw [if_pos hdd]
    · rw [if_neg hdd]
      have hmem := hsafe dd dp hlk hdd
      rcases calc_not_error hmem.1 hmem.2.1 hmem.2.2 with ⟨o, ho⟩
      rw [ho]
      cases o with
      | none => rfl
      | some path =>
        simp only
        by_cases hlen : 2 ≤ path.length
        · rw [if_pos hlen]
          have hp := calc_ok_some_props hdd ho
          rcases path_first_edge hp.1 hp.2.2.1 hlen with ⟨ed, hed⟩
          rw [hed]
          simp only
          rw [install_snd_none st.net st.datapaths src dst in_port dp path hp.2.2.1]
        · rw [if_neg hlen]

theorem handle_no_err (st : ControllerState) (e : Event) (hs : eventSafe st e) :
    (handleEvent st e).2.2 = none := by
  cases e with
  | stateChangeMain dpid =>
    simp only [handleEvent, state_change_main]
    split <;> rfl
  | stateChangeDead dpid => rfl
  | switchEnter dpid => rfl
  | switchLeave dpid =>
    simp only [handleEvent, switch_leave_handler]
    split <;> rfl
  | linkAdd a b pa pb => rfl
  | linkDelete a b => rfl
  | portStatsReply dpid body t =>
    simp only [handleEvent, port_stats_reply_handler]
    exact process_no_err dpid t body st.net st.port_stats hs
  | packetIn dpid inp src dst lldp =>
    cases lldp with
    | true => rfl
    | false => exact packet_in_no_err st dpid inp src dst (hs rfl)

/-! ### Weight-range invariant (claim C1): every edge of a reachable
graph with monotone counters has weight in [1, 11] and capacity 100 -/

theorem edgesOk_addNode {g : DiGraph} (h : EdgesOk g) (n : Nat) : EdgesOk (g.addNode n) := by
  intro e he
  rw [edges_addNode] at he
  exact h e he

theorem edgesOk_addEdge {g : DiGraph} {d : EdgeData} (h : EdgesOk g)
    (hd : 1 ≤ d.weight ∧ d.weight ≤ 11 ∧ d.capacity = 100) (u v : Nat) :
    EdgesOk (g.addEdge u v d) := by
  intro e he
  simp only [DiGraph.addEdge] at he
  split at he
  · simp only at he
    rcases mem_replaceEdge he with h2 | h2
    · rw [edges_addNode, edges_addNode] at h2
      exact h e h2
    · rw [h2.2.2]
      exact hd
  · simp only at he
    rcases List.mem_append.mp he with h2 | h2
    · rw [edges_addNode, edges_addNode] at h2
      exact h e h2
    · rcases List.mem_singleton.mp h2 with rfl
      exact hd

theorem edgesOk_removeNode {g : DiGraph} (h : EdgesOk g) (n : Nat) :
    EdgesOk (g.removeNode n) := by
  intro e he
  simp only [DiGraph.removeNode, List.mem_filter] at he
  exact h e he.1

theorem edgesOk_removeEdge {g : DiGraph} (h : EdgesOk g) (u v : Nat) :
    EdgesOk (g.removeEdge u v) := by
  intro e he
  simp only [DiGraph.removeEdge, List.mem_filter] at he
  exact h e he.1

theorem edgesOk_update {g : DiGraph} (h : EdgesOk g) {T : ℚ} (hT : 0 ≤ T)
    (dpid port_no : Nat) : EdgesOk (update_edge_weights g dpid port_no T) := by
  intro e he
  rcases mem_update_edge_weights he with ⟨e0, he0, _, _, hcase⟩
  rcases hcase with rfl | hdata
  · exact h _ he0
  · have h0 := h e0 he0
    rw [hdata]
    have hcap : e0.data.capacity = 100 := h0.2.2
    rw [hcap]
    have hmin0 : (0 : ℚ) ≤ min (T / 100) 1 := le_min (by positivity) (by norm_num)
    have hmin1 : min (T / 100) 1 ≤ 1 := min_le_right _ _
    refine ⟨?_, ?_, rfl⟩
    · simp only
      nlinarith
    · simp only
      nlinarith

theorem edgesOk_process (dpid : Nat) (curr_time : ℚ) :
    ∀ (body : List PortStat) (g : DiGraph) (stats : List ((Nat × Nat) × StatSample)),
      EdgesOk g → okEntries stats dpid curr_time body = true →
      EdgesOk (process_port_stats g stats dpid curr_time body).1 := by
  intro body
  induction body with
  | nil => intro g stats h _; exact h
  | cons stat rest ih =>
    intro g stats h hok
    simp only [process_port_stats]
    simp only [okEntries] at hok
    split
    · rename_i hp
      rw [if_pos hp] at hok
      exact ih g stats h hok
    · rename_i hp
      rw [if_neg hp] at hok
      split
      · rename_i prev hprev
        rw [hprev] at hok
        simp only [Bool.and_eq_true, decide_eq_true_eq] at hok
        split
        · split
          · rename_i hdt hnode
            apply ih
            · apply edgesOk_update h _ dpid stat.port_no
              have htx : (0 : ℚ) ≤ ((stat.tx_bytes : ℚ) - (prev.tx_bytes : ℚ)) /
                  (curr_time - prev.timestamp) :=
                div_nonneg (sub_nonneg.mpr (Nat.cast_le.mpr hok.1.1)) (le_of_lt hdt)
              have hrx : (0 : ℚ) ≤ ((stat.rx_bytes : ℚ) - (prev.rx_bytes : ℚ)) /
                  (curr_time - prev.timestamp) :=
                div_nonneg (sub_nonneg.mpr (Nat.cast_le.mpr hok.1.2)) (le_of_lt hdt)
              positivity
            · exact hok.2
          · exact h
        · exact ih g _ h hok.2
      · rename_i hprev
        rw [hprev] at hok
        exact ih g _ h hok

theorem net_state_change_main (st : ControllerState) (dpid : Nat) :
    (state_change_main st dpid).1.net = st.net := by
  simp only [state_change_main]
  split <;> rfl

theorem net_packet_in (st : ControllerState) (dpid in_port : Nat) (src dst : String)
    (lldp : Bool) : (packet_in_handler st dpid in_port src dst lldp).1.net = st.net := by
  simp only [packet_in_handler]
  repeat' split
  all_goals rfl

theorem edgesOk_handleEvent {st : ControllerState} (h : EdgesOk st.net) (e : Event)
    (hok : statsMonotone st e = true) : EdgesOk (handleEvent st e).1.net := by
  cases e with
  | stateChangeMain dpid => rw [handleEvent, net_state_change_main]; exact h
  | stateChangeDead dpid => exact h
  | switchEnter dpid => exact edgesOk_addNode h dpid
  | switchLeave dpid =>
    simp only [handleEvent, switch_leave_handler]
    split
    · exact edgesOk_removeNode h dpid
    · exact h
  | linkAdd a b pa pb =>
    refine edgesOk_addEdge (edgesOk_addEdge h ?_ a b) ?_ b a <;>
      exact ⟨le_refl 1, by norm_num, rfl⟩
  | linkDelete a b =>
    simp only [handleEvent, link_delete_handler]
    split
    · split
      · exact edgesOk_removeEdge (edgesOk_removeEdge h a b) b a
      · exact edgesOk_removeEdge h a b
    · split
      · exact edgesOk_removeEdge h b a
      · exact h
  | portStatsReply dpid body t =>
    simp only [statsMonotone] at hok
    exact edgesOk_process dpid t body st.net st.port_stats h hok
  | packetIn dpid inp src dst lldp => rw [handleEvent, net_packet_in]; exact h

theorem reachableOk_edgesOk {st : ControllerState} (h : ReachableOk st) : EdgesOk st.net := by
  induction h with
  | init => intro e he; simp [initState, DiGraph.empty] at he
  | event st e _ hok ih => exact edgesOk_handleEvent ih e hok
  | timer st _ _ ih => rw [timer_net_eq]; exact ih

/-! ### Lookup lemmas for `add_edge` (claim C9) -/

theorem findEdge_append (u v : Nat) : ∀ l1 l2 : List NxEdge,
    findEdge (l1 ++ l2) u v = (findEdge l1 u v).orElse (fun _ => findEdge l2 u v) := by
  intro l1 l2
  induction l1 with
  | nil => simp [findEdge, Option.orElse]
  | cons a as ih =>
    simp only [List.cons_append, findEdge]
    split
    · rfl
    · exact ih

theorem findEdge_replaceEdge_same {u v : Nat} {d : EdgeData} :
    ∀ l : List NxEdge, (findEdge l u v).isSome = true →
      ∃ e, findEdge (replaceEdge l u v d) u v = some e ∧ e.data = d := by
  intro l
  induction l with
  | nil => intro h; simp [findEdge] at h
  | cons a as ih =>
    intro h
    simp only [findEdge, replaceEdge] at *
    split at h
    · rename_i hc
      rw [if_pos hc]
      simp only [findEdge]
      rw [if_pos (by simpa using hc)]
      exact ⟨_, rfl, rfl⟩
    · rename_i hc
      rw [if_neg hc]
      simp only [findEdge]
      rw [if_neg hc]
      exact ih h

theorem findEdge_replaceEdge_ne {u v u' v' : Nat} {d : EdgeData}
    (h : ¬(u' = u ∧ v' = v)) :
    ∀ l : List NxEdge, findEdge (replaceEdge l u v d) u' v' = findEdge l u' v' := by
  intro l
  induction l with
  | nil => rfl
  | cons a as ih =>
    simp only [replaceEdge]
    split
    · rename_i hc
      simp only [findEdge]
      have hne : ¬(a.src = u' ∧ a.dst = v') := by
        intro hcon
        exact h ⟨hcon.1 ▸ hc.1.symm ▸ rfl, hcon.2 ▸ hc.2.symm ▸ rfl⟩
      rw [if_neg (by simpa using hne), if_neg hne]
    · simp only [findEdge]
      split
      · rfl
      · exact ih

theorem getEdge_addEdge_same (g : DiGraph) (u v : Nat) (d : EdgeData) :
    (g.addEdge u v d).getEdge u v = some d := by
  simp only [DiGraph.addEdge]
  split
  · rename_i hhe
    simp only [DiGraph.hasEdge, DiGraph.getEdge] at hhe
    have hsome : (findEdge ((g.addNode u).addNode v).edges u v).isSome = true := by
      cases hfe : findEdge ((g.addNode u).addNode v).edges u v with
      | none => rw [hfe] at hhe; simp at hhe
      | some e => simp
    rcases findEdge_replaceEdge_same (d := d) _ hsome with ⟨e, he, hd⟩
    simp [DiGraph.getEdge, he, hd]
  · simp only [DiGraph.getEdge, findEdge_append]
    rename_i hhe
    simp only [DiGraph.hasEdge, DiGraph.getEdge] at hhe
    cases hfe : findEdge ((g.addNode u).addNode v).edges u v with
    | none => simp [hfe, findEdge, Option.orElse]
    | some e => rw [hfe] at hhe; simp at hhe

theorem getEdge_addEdge_ne (g : DiGraph) {u v u' v' : Nat} (d : EdgeData)
    (h : ¬(u' = u ∧ v' = v)) :
    (g.addEdge u v d).getEdge u' v' = g.getEdge u' v' := by
  have hedges : g.getEdge u' v' = ((g.addNode u).addNode v).getEdge u' v' := by
    simp only [DiGraph.getEdge, edges_addNode]
  rw [hedges]
  simp only [DiGraph.addEdge]
  split
  · simp only [DiGraph.getEdge]
    rw [findEdge_replaceEdge_ne h]
  · simp only [DiGraph.getEdge, findEdge_append]
    cases hfe : findEdge ((g.addNode u).addNode v).edges u' v' with
    | none =>
      have hnone : findEdge [(⟨u, v, d⟩ : NxEdge)] u' v' = none := by
        simp only [findEdge]
        rw [if_neg (by intro hc; exact h ⟨hc.1.symm, hc.2.symm⟩)]
      simp [hnone]
    | some e => simp

/-! ### Host-table lookup lemmas (claim C10) -/

theorem lookupHost_append (mac : String) : ∀ l1 l2 : List (String × Nat × Nat),
    lookupHost (l1 ++ l2) mac = (lookupHost l1 mac).orElse (fun _ => lookupHost l2 mac) := by
  intro l1 l2
  induction l1 with
  | nil => simp [lookupHost, Option.orElse]
  | cons a as ih =>
    rcases a with ⟨m, loc⟩
    simp only [List.cons_append, lookupHost]
    split
    · rfl
    · exact ih

theorem lookupHost_none_iff (mac : String) : ∀ l : List (String × Nat × Nat),
    lookupHost l mac = none ↔ mac ∉ l.map (·.1) := by
  intro l
  induction l with
  | nil => simp [lookupHost]
  | cons a as ih =>
    rcases a with ⟨m, loc⟩
    simp only [lookupHost, List.map_cons, List.mem_cons]
    split
    · rename_i hm
      subst hm
      simp
    · rename_i hm
      simp [ih, hm]

theorem foldl_prepend : ∀ (l base : List (String × Nat × Nat)),
    l.foldl (fun h p => p :: h) base = l.reverse ++ base := by
  intro l
  induction l with
  | nil => intro base; simp
  | cons a as ih =>
    intro base
    simp only [List.foldl_cons, List.reverse_cons, List.append_assoc]
    rw [ih (a :: base)]
    simp

theorem lookupHost_reverse (mac : String) :
    ∀ l : List (String × Nat × Nat), (l.map (·.1)).Nodup →
      lookupHost l.reverse mac = lookupHost l mac := by
  intro l
  induction l with
  | nil => intro _; rfl
  | cons a as ih =>
    intro hnd
    rcases a with ⟨m, loc⟩
    simp only [List.map_cons, List.nodup_cons] at hnd
    simp only [List.reverse_cons]
    rw [lookupHost_append]
    rw [ih hnd.2]
    simp only [lookupHost]
    split
    · rename_i hm
      subst hm
      have hnone : lookupHost as mac = none := (lookupHost_none_iff mac as).mpr hnd.1
      simp [hnone, Option.orElse]
    · cases hl : lookupHost as mac with
      | none => simp [Option.orElse, lookupHost]
      | some v => simp [Option.orElse]

/-! ### Further helper lemmas for the claims -/

theorem install_countP_packetOut (g : DiGraph) (dps : List Nat) (a b : String)
    (ip op : Nat) : ∀ path : List Nat,
    (install_path_flows g dps a b ip op path).1.countP isPacketOut = 0 := by
  intro path
  induction path with
  | nil => rfl
  | cons d rest ih =>
    cases rest with
    | nil =>
      simp only [install_path_flows]
      split <;> simp [List.countP_cons, List.countP_nil, isPacketOut]
    | cons d2 rest2 =>
      simp only [install_path_flows]
      split
      · cases hed : g.getEdge d d2 with
        | none => rfl
        | some ed =>
          simp [List.countP_cons, isPacketOut, ih]
      · exact ih

theorem update_edge_weights_spec {g : DiGraph} {dpid port_no : Nat} {T : ℚ} {e : NxEdge}
    (he : e ∈ (update_edge_weights g dpid port_no T).edges)
    (hsrc : e.src = dpid) (hport : e.data.port = port_no) :
    e.data.weight = 1 + min (T / e.data.capacity) 1 * 10 := by
  simp only [update_edge_weights, List.mem_map] at he
  rcases he with ⟨e0, he0, heq⟩
  by_cases hc : e0.src = dpid ∧ e0.data.port = port_no
  · rw [if_pos hc] at heq
    rw [← heq]
  · rw [if_neg hc] at heq
    subst heq
    exact absurd ⟨hsrc, hport⟩ hc

/-! ### Range characterization helper (claim C5) -/

theorem filterMap_range_succ {β : Type} (f : Nat → Option β) (n : Nat) :
    (List.range (n + 1)).filterMap f =
      (f 0).toList ++ (List.range n).filterMap (fun i => f (i + 1)) := by
  rw [List.range_succ_eq_map, List.filterMap_cons]
  cases hf : f 0 with
  | none =>
    simp only [hf, Option.toList_none, List.nil_append, List.filterMap_map]
    rfl
  | some b =>
    simp only [hf, Option.toList_some, List.singleton_append, List.filterMap_map]
    rfl

/-! ## Claim theorems -/

/-- Claim C1 (counterexample): the invariant "every edge weight lies in
[1, 11] in every reachable state" fails as stated: after link-add(1, 2)
a stats reply stores tx = 125000000, and a later reply with tx = 0 (a
counter reset) yields throughput -1000 Mbps and writes weight
1 + 10 * min(-1000/100, 1) = -99 < 1 onto edge 1→2. -/
theorem C1_weight_range_cex :
    Reachable (handleEvent (handleEvent (handleEvent initState (.linkAdd 1 2 3 4)).1
      (.portStatsReply 1 [⟨3, 125000000, 0⟩] 0)).1 (.portStatsReply 1 [⟨3, 0, 0⟩] 1)).1 ∧
    (handleEvent (handleEvent (handleEvent initState (.linkAdd 1 2 3 4)).1
      (.portStatsReply 1 [⟨3, 125000000, 0⟩] 0)).1
        (.portStatsReply 1 [⟨3, 0, 0⟩] 1)).1.net.getEdge 1 2 = some ⟨3, -99, 100⟩ ∧
    ¬((1 : ℚ) ≤ -99) :=
  ⟨Reachable.event _ _ (Reachable.event _ _ (Reachable.event _ _ Reachable.init)),
    by with_unfolding_all decide, by norm_num⟩

/-- Claim C1 (amended): in every state reachable by runs whose stats
replies carry monotone byte counters (each non-LOCAL entry's counters
at least the stored sample's), every edge of the Topology Graph has
weight in [1, 11] — in particular weight ≥ 1, the non-negativity
Dijkstra relies on. -/
theorem C1_weight_range_amended (st : ControllerState) (h : ReachableOk st) :
    ∀ e ∈ st.net.edges, 1 ≤ e.data.weight ∧ e.data.weight ≤ 11 :=
  fun e he => ⟨(reachableOk_edgesOk h e he).1, (reachableOk_edgesOk h e he).2.1⟩

/-- Witness for C1: a run with a link-add and two monotone stats
replies that saturate the link; edge 1→2 ends at weight 11, inside the
range. -/
theorem C1_weight_range_witness :
    ReachableOk (handleEvent (handleEvent (handleEvent initState (.linkAdd 1 2 3 4)).1
      (.portStatsReply 1 [⟨3, 0, 0⟩] 0)).1
        (.portStatsReply 1 [⟨3, 12500000, 0⟩] 1)).1 ∧
    (⟨1, 2, ⟨3, 11, 100⟩⟩ : NxEdge) ∈
      (handleEvent (handleEvent (handleEvent initState (.linkAdd 1 2 3 4)).1
        (.portStatsReply 1 [⟨3, 0, 0⟩] 0)).1
          (.portStatsReply 1 [⟨3, 12500000, 0⟩] 1)).1.net.edges ∧
    (1 ≤ (⟨3, 11, 100⟩ : EdgeData).weight ∧ (⟨3, 11, 100⟩ : EdgeData).weight ≤ 11) := by
  have hOk : ReachableOk (handleEvent (handleEvent (handleEvent initState
      (.linkAdd 1 2 3 4)).1 (.portStatsReply 1 [⟨3, 0, 0⟩] 0)).1
        (.portStatsReply 1 [⟨3, 12500000, 0⟩] 1)).1 :=
    ReachableOk.event _ _
      (ReachableOk.event _ _
        (ReachableOk.event _ _ ReachableOk.init (by decide))
        (by with_unfolding_all decide))
      (by with_unfolding_all decide)
  have hmem : (⟨1, 2, ⟨3, 11, 100⟩⟩ : NxEdge) ∈
      (handleEvent (handleEvent (handleEvent initState (.linkAdd 1 2 3 4)).1
        (.portStatsReply 1 [⟨3, 0, 0⟩] 0)).1
          (.portStatsReply 1 [⟨3, 12500000, 0⟩] 1)).1.net.edges := by
    with_unfolding_all decide
  exact ⟨hOk, hmem, C1_weight_range_amended _ hOk ⟨1, 2, ⟨3, 11, 100⟩⟩ hmem⟩

/-- Claim C2 (counterexample): processing does not always return
normally: a second stats reply for a switch that is not a node of the
Topology Graph (here: never observed by a switch-enter event) reaches
`self.net.neighbors(dpid)` and raises `NetworkXError` in a reachable
state. -/
theorem C2_returns_normally_cex :
    Reachable (handleEvent initState (.portStatsReply 1 [⟨1, 0, 0⟩] 0)).1 ∧
    (handleEvent (handleEvent initState (.portStatsReply 1 [⟨1, 0, 0⟩] 0)).1
      (.portStatsReply 1 [⟨1, 0, 0⟩] 1)).2.2 = some .networkXError :=
  ⟨Reachable.event _ _ Reachable.init, by with_unfolding_all decide⟩

/-- Claim C2 (amended): every inbound event handled in any state returns
normally, provided a stats reply's switch is a node of the Topology
Graph and, whenever a non-discovery packet-in's destination is known and
recorded on a different switch, the ingress switch and the looked-up
destination switch are nodes of the graph and no edge weight is negative
(otherwise `nx.shortest_path` can raise `NodeNotFound` or
`ValueError("Contradictory paths found: negative weights?")`, neither of
which `calculate_best_path` catches); every handled condition then
degrades to flood or skip. -/
theorem C2_no_uncaught_error_amended (st : ControllerState) (e : Event)
    (hs : eventSafe st e) : (handleEvent st e).2.2 = none :=
  handle_no_err st e hs

/-- Witness for C2: a stats reply for a switch present in the graph. -/
theorem C2_no_uncaught_error_witness :
    eventSafe (handleEvent initState (.switchEnter 1)).1 (.portStatsReply 1 [⟨2, 5, 5⟩] 3) ∧
    (handleEvent (handleEvent initState (.switchEnter 1)).1
      (.portStatsReply 1 [⟨2, 5, 5⟩] 3)).2.2 = none := by
  have hs : eventSafe (handleEvent initState (.switchEnter 1)).1
      (.portStatsReply 1 [⟨2, 5, 5⟩] 3) := by
    show (1 : Nat) ∈ (handleEvent initState (.switchEnter 1)).1.net.nodes
    decide
  exact ⟨hs, C2_no_uncaught_error_amended _ _ hs⟩

set_option maxRecDepth 16384 in
/-- Claim C3 (code bug): `_install_proactive_flows` can execute more
than once.  The flag on line 156 is assigned only after the call on
line 155 returns; when the install raises (`NodeNotFound`: a registry
switch such as dpid 2 is absent from the graph), the flag stays unset,
so a second armed `delayed_install` timer runs the install again.
Trace: six link-adds among switches 20-26 (12 directed edges ≥ 10, two
timers armed while the flag is unset), then both timers fire:
`install_runs` reaches 2, and the flag is still false after the first
firing. -/
theorem C3_double_execution_bug :
    Reachable (timer_fire (timer_fire
      ([Event.linkAdd 20 21 1 1, .linkAdd 20 22 1 1, .linkAdd 20 23 1 1,
        .linkAdd 20 24 1 1, .linkAdd 20 25 1 1, .linkAdd 20 26 1 1].foldl
        (fun st e => (handleEvent st e).1) initState)).1).1 ∧
    (timer_fire (timer_fire
      ([Event.linkAdd 20 21 1 1, .linkAdd 20 22 1 1, .linkAdd 20 23 1 1,
        .linkAdd 20 24 1 1, .linkAdd 20 25 1 1, .linkAdd 20 26 1 1].foldl
        (fun st e => (handleEvent st e).1) initState)).1).1.install_runs = 2 ∧
    (timer_fire
      ([Event.linkAdd 20 21 1 1, .linkAdd 20 22 1 1, .linkAdd 20 23 1 1,
        .linkAdd 20 24 1 1, .linkAdd 20 25 1 1, .linkAdd 20 26 1 1].foldl
        (fun st e => (handleEvent st e).1) initState)).1.proactive_flows_installed = false := by
  refine ⟨?_, by decide, by decide⟩
  refine Reachable.timer _ (Reachable.timer _ ?_ (by decide)) (by decide)
  exact Reachable.event _ _ (Reachable.event _ _ (Reachable.event _ _ (Reachable.event _ _
    (Reachable.event _ _ (Reachable.event _ _ Reachable.init)))))

/-- Claim C6 (counterexample): `calculate_best_path` does not return
the "no path" result when the source id is absent from the graph; it
raises `NodeNotFound` (only `NetworkXNoPath` is caught), refuting the
claim's "(including when either id is not a node of the graph)". -/
theorem C6_no_path_cex :
    calculate_best_path DiGraph.empty 1 2 = .error .nodeNotFound := by decide

/-- Claim C6 (amended): for distinct switch ids that are both nodes of
the graph, if no edge weight is negative and the graph contains no
directed edge sequence from `s` to `t` then `calculate_best_path`
returns the "no path" result (`none`) rather than raising; when either
id is absent it raises `NodeNotFound` instead (and on a negative-weight
graph `bidirectional_dijkstra` can raise an uncaught `ValueError`). -/
theorem C6_no_path_amended (g : DiGraph) (s t : Nat) (hs : s ∈ g.nodes) (ht : t ∈ g.nodes)
    (hst : s ≠ t) (hw : ∀ e ∈ g.edges, 0 ≤ e.data.weight) (hnr : ¬Reaches g s t) :
    calculate_best_path g s t = .ok none :=
  calc_none_of_not_reaches hs ht hst hw hnr

/-- Witness for C6 at the two-node edgeless graph. -/
theorem C6_no_path_witness :
    ((1 : Nat) ∈ (⟨[1, 2], []⟩ : DiGraph).nodes ∧ (2 : Nat) ∈ (⟨[1, 2], []⟩ : DiGraph).nodes ∧
      (1 : Nat) ≠ 2 ∧ (∀ e ∈ (⟨[1, 2], []⟩ : DiGraph).edges, 0 ≤ e.data.weight) ∧
      ¬Reaches (⟨[1, 2], []⟩ : DiGraph) 1 2) ∧
    calculate_best_path (⟨[1, 2], []⟩ : DiGraph) 1 2 = .ok none := by
  have hnr : ¬Reaches (⟨[1, 2], []⟩ : DiGraph) 1 2 := by
    intro h
    cases h with
    | step hE _ => simp [DiGraph.hasEdge, DiGraph.getEdge, findEdge] at hE
  have hw : ∀ e ∈ (⟨[1, 2], []⟩ : DiGraph).edges, 0 ≤ e.data.weight := by
    intro e he
    simp at he
  exact ⟨⟨by decide, by decide, by decide, hw, hnr⟩,
    C6_no_path_amended _ 1 2 (by decide) (by decide) (by decide) hw hnr⟩

/-- Claim C7 (counterexample): "in all cases the stored sample for the
key is overwritten" fails: a second stats reply for a switch that is
not a node of the graph (prior sample present, positive elapsed time)
raises at `self.net.neighbors(dpid)` before the store, leaving the old
sample in place. -/
theorem C7_overwrite_cex :
    Reachable (handleEvent initState (.portStatsReply 3 [⟨2, 1, 1⟩] 0)).1 ∧
    (handleEvent (handleEvent initState (.portStatsReply 3 [⟨2, 1, 1⟩] 0)).1
      (.portStatsReply 3 [⟨2, 5, 5⟩] 1)).2.2 = some .networkXError ∧
    lookupStat (handleEvent (handleEvent initState (.portStatsReply 3 [⟨2, 1, 1⟩] 0)).1
      (.portStatsReply 3 [⟨2, 5, 5⟩] 1)).1.port_stats (3, 2) = some ⟨1, 1, 0⟩ ∧
    (⟨1, 1, 0⟩ : StatSample) ≠ ⟨5, 5, 1⟩ :=
  ⟨Reachable.event _ _ Reachable.init, by with_unfolding_all decide,
    by with_unfolding_all decide, by decide⟩

/-- Claim C7 (amended): for a non-LOCAL stats entry, provided the
reply's switch is a node of the graph or the entry has no prior sample
or non-positive elapsed time: processing raises nothing, the stored
sample for the key is overwritten with the observed counters and
timestamp, and when there is no prior sample or elapsed time ≤ 0 the
graph (hence every edge weight) is left unchanged — the division by the
elapsed time is guarded by `0 < time_diff`, so no division by zero or
negative time happens. -/
theorem C7_sample_overwrite_amended (g : DiGraph) (stats : List ((Nat × Nat) × StatSample))
    (dpid : Nat) (curr_time : ℚ) (stat : PortStat)
    (hport : stat.port_no ≠ OFPP_LOCAL)
    (hsafe : dpid ∈ g.nodes ∨ lookupStat stats (dpid, stat.port_no) = none ∨
      (∀ prev, lookupStat stats (dpid, stat.port_no) = some prev →
        curr_time - prev.timestamp ≤ 0)) :
    (process_port_stats g stats dpid curr_time [stat]).2.2 = none ∧
    lookupStat (process_port_stats g stats dpid curr_time [stat]).2.1 (dpid, stat.port_no) =
      some ⟨stat.tx_bytes, stat.rx_bytes, curr_time⟩ ∧
    ((lookupStat stats (dpid, stat.port_no) = none ∨
      (∀ prev, lookupStat stats (dpid, stat.port_no) = some prev →
        curr_time - prev.timestamp ≤ 0)) →
      (process_port_stats g stats dpid curr_time [stat]).1 = g) := by
  cases hlk : lookupStat stats (dpid, stat.port_no) with
  | none =>
    exact ⟨by simp [process_port_stats, hport, hlk],
      by simp [process_port_stats, hport, hlk, lookupStat],
      fun _ => by simp [process_port_stats, hport, hlk]⟩
  | some prev =>
    by_cases hdt : 0 < curr_time - prev.timestamp
    · have hg : dpid ∈ g.nodes := by
        rcases hsafe with h | h | h
        · exact h
        · rw [hlk] at h; cases h
        · exact absurd (h prev hlk) (not_le.mpr hdt)
      refine ⟨by simp [process_port_stats, hport, hlk, hdt, hg],
        by simp [process_port_stats, hport, hlk, hdt, hg, lookupStat], fun hcase => ?_⟩
      rcases hcase with h | h
      · cases h
      · exact absurd (h prev rfl) (not_le.mpr hdt)
    · exact ⟨by simp [process_port_stats, hport, hlk, hdt],
        by simp [process_port_stats, hport, hlk, hdt, lookupStat],
        fun _ => by simp [process_port_stats, hport, hlk, hdt]⟩

/-- Witness for C7: entry with no prior sample on the empty state. -/
theorem C7_sample_overwrite_witness :
    ((1 : Nat) ≠ OFPP_LOCAL ∧
      ((3 : Nat) ∈ DiGraph.empty.nodes ∨
        lookupStat [] ((3 : Nat), (1 : Nat)) = none ∨
        (∀ prev, lookupStat [] ((3 : Nat), (1 : Nat)) = some prev →
          (2 : ℚ) - prev.timestamp ≤ 0))) ∧
    ((process_port_stats DiGraph.empty [] 3 2 [⟨1, 5, 6⟩]).2.2 = none ∧
      lookupStat (process_port_stats DiGraph.empty [] 3 2 [⟨1, 5, 6⟩]).2.1 (3, 1) =
        some ⟨5, 6, 2⟩ ∧
      ((lookupStat [] ((3 : Nat), (1 : Nat)) = none ∨
        (∀ prev, lookupStat [] ((3 : Nat), (1 : Nat)) = some prev →
          (2 : ℚ) - prev.timestamp ≤ 0)) →
        (process_port_stats DiGraph.empty [] 3 2 [⟨1, 5, 6⟩]).1 = DiGraph.empty)) :=
  ⟨⟨by decide, Or.inr (Or.inl rfl)⟩,
    C7_sample_overwrite_amended DiGraph.empty [] 3 2 ⟨1, 5, 6⟩ (by decide)
      (Or.inr (Or.inl rfl))⟩

/-- Claim C8: the weight written by the stats handler onto every edge of
the reply's switch whose egress port matches equals
`1 + 10 * min(throughput / capacity, 1)`; in particular weight 1 at zero
utilization, 6 at half, 11 at full, clamped at 11 when the throughput
exceeds the capacity. -/
theorem C8_weight_formula (T c : ℚ) (hc : 0 < c) (_hT : 0 ≤ T) :
    (∀ (g : DiGraph) (dpid port_no : Nat),
      ∀ e ∈ (update_edge_weights g dpid port_no T).edges,
        e.src = dpid → e.data.port = port_no → e.data.capacity = c →
        e.data.weight = 1 + 10 * min (T / c) 1) ∧
    1 + 10 * min ((0 : ℚ) / c) 1 = 1 ∧
    1 + 10 * min (c / 2 / c) 1 = 6 ∧
    1 + 10 * min (c / c) 1 = 11 ∧
    (c ≤ T → 1 + 10 * min (T / c) 1 = 11) := by
  have hc0 : c ≠ 0 := ne_of_gt hc
  refine ⟨?_, ?_, ?_, ?_, ?_⟩
  · intro g dpid port_no e he hsrc hport hcap
    rw [update_edge_weights_spec he hsrc hport, hcap]
    ring
  · simp [zero_div]
  · have h2 : c / 2 / c = 1 / 2 := by field_simp; ring
    rw [h2, min_eq_left (by norm_num : (1 : ℚ) / 2 ≤ 1)]
    norm_num
  · rw [div_self hc0]
    norm_num
  · intro hcT
    have h1 : (1 : ℚ) ≤ T / c := (le_div_iff₀ hc).mpr (by linarith)
    rw [min_eq_right h1]
    norm_num

/-- Witness for C8 at capacity 100 and throughput 50. -/
theorem C8_weight_formula_witness :
    ((0 : ℚ) < 100 ∧ (0 : ℚ) ≤ 50) ∧
    ((∀ (g : DiGraph) (dpid port_no : Nat),
      ∀ e ∈ (update_edge_weights g dpid port_no 50).edges,
        e.src = dpid → e.data.port = port_no → e.data.capacity = 100 →
        e.data.weight = 1 + 10 * min ((50 : ℚ) / 100) 1) ∧
    1 + 10 * min ((0 : ℚ) / 100) 1 = 1 ∧
    1 + 10 * min ((100 : ℚ) / 2 / 100) 1 = 6 ∧
    1 + 10 * min ((100 : ℚ) / 100) 1 = 11 ∧
    ((100 : ℚ) ≤ 50 → 1 + 10 * min ((50 : ℚ) / 100) 1 = 11)) :=
  ⟨⟨by norm_num, by norm_num⟩, C8_weight_formula 50 100 (by norm_num) (by norm_num)⟩

/-- Claim C9 (counterexample): for A = B (a self link) with distinct
ports the two `add_edge` calls write the same key, and the surviving
egress port is `pB`, not `pA`: the unconditional "for all switch ids
A, B" fails. -/
theorem C9_link_add_cex :
    ¬ ∀ (A B pA pB : Nat),
      (handleEvent initState (.linkAdd A B pA pB)).1.net.getEdge A B =
          some ⟨pA, 1, 100⟩ ∧
        (handleEvent initState (.linkAdd A B pA pB)).1.net.getEdge B A =
          some ⟨pB, 1, 100⟩ := by
  intro hall
  exact absurd (hall 1 1 1 2).1 (by decide)

/-- Claim C9 (amended): for distinct switch ids A ≠ B, immediately
after processing link-add(A, pA, B, pB) in any state, the graph has the
edge A→B with egress port pA and B→A with egress port pB, both with
weight 1 and capacity 100. -/
theorem C9_link_add_amended (st : ControllerState) (A B pA pB : Nat) (hAB : A ≠ B) :
    (handleEvent st (.linkAdd A B pA pB)).1.net.getEdge A B = some ⟨pA, 1, 100⟩ ∧
    (handleEvent st (.linkAdd A B pA pB)).1.net.getEdge B A = some ⟨pB, 1, 100⟩ := by
  have h1 : (handleEvent st (.linkAdd A B pA pB)).1.net =
      (st.net.addEdge A B ⟨pA, 1, 100⟩).addEdge B A ⟨pB, 1, 100⟩ := rfl
  constructor
  · rw [h1, getEdge_addEdge_ne _ _ (fun hc => hAB hc.1), getEdge_addEdge_same]
  · rw [h1, getEdge_addEdge_same]

/-- Witness for C9 at A = 1, B = 2. -/
theorem C9_link_add_witness :
    (1 : Nat) ≠ 2 ∧
    ((handleEvent initState (.linkAdd 1 2 5 7)).1.net.getEdge 1 2 = some ⟨5, 1, 100⟩ ∧
     (handleEvent initState (.linkAdd 1 2 5 7)).1.net.getEdge 2 1 = some ⟨7, 1, 100⟩) :=
  ⟨by decide, C9_link_add_amended initState 1 2 5 7 (by decide)⟩

/-- Claim C10: executing `_install_proactive_flows` stores all nine
registry addresses into the host table with their registry (switch,
port) values — the writes happen before any path computation, so they
persist for every starting state, including those where the pair loop
later raises — overwriting any learned record for those addresses and
leaving every other address's record unchanged. -/
theorem C10_registry_hosts (st : ControllerState) :
    (∀ mac loc, lookupHost known_hosts mac = some loc →
      lookupHost (install_proactive_flows st).1.hosts mac = some loc) ∧
    (∀ mac, lookupHost known_hosts mac = none →
      lookupHost (install_proactive_flows st).1.hosts mac = lookupHost st.hosts mac) := by
  have hkeys : (known_hosts.map (·.1)).Nodup := by decide
  have hh : (install_proactive_flows st).1.hosts = known_hosts.reverse ++ st.hosts := by
    show known_hosts.foldl (fun h p => p :: h) st.hosts = _
    exact foldl_prepend known_hosts st.hosts
  constructor
  · intro mac loc hmac
    rw [hh, lookupHost_append, lookupHost_reverse mac known_hosts hkeys, hmac]
    rfl
  · intro mac hmac
    rw [hh, lookupHost_append, lookupHost_reverse mac known_hosts hkeys, hmac]
    rfl

theorem ruleAt_cons (g : DiGraph) (dps : List Nat) (src dst : String) (op : Nat)
    (d d2 : Nat) (rest2 : List Nat) (i : Nat) :
    ruleAt g dps src dst op (d :: d2 :: rest2) (i + 1) =
      ruleAt g dps src dst op (d2 :: rest2) i := by
  simp only [ruleAt, List.getD_cons_succ, List.length_cons, Nat.add_sub_cancel,
    Nat.add_right_cancel_iff]

/-- Claim C5: for every path and position, `_install_path_flows` skips
switches absent from the connected-switch set without aborting the
remaining ones; the rule for the last switch outputs to the destination
host's attachment port (`last_out_port`), the rule for every other
switch outputs to the Topology Graph's egress port of the edge toward
the next path switch.  The produced flow list is exactly the
per-position description `ruleAt`, and no error is raised (the edge
presupposed by the claim exists at every connected non-last position). -/
theorem C5_install_rules (g : DiGraph) (dps : List Nat) (src dst : String)
    (first_in_port last_out_port : Nat) :
    ∀ path : List Nat,
    (∀ i, i + 1 < path.length → path.getD i 0 ∈ dps →
      g.hasEdge (path.getD i 0) (path.getD (i + 1) 0) = true) →
    install_path_flows g dps src dst first_in_port last_out_port path =
      ((List.range path.length).filterMap (ruleAt g dps src dst last_out_port path),
        none) := by
  intro path
  induction path with
  | nil => intro _; rfl
  | cons d rest ih =>
    intro h
    cases rest with
    | nil =>
      have hr1 : List.range 1 = [0] := rfl
      by_cases hd : d ∈ dps <;>
        simp [install_path_flows, ruleAt, hd, hr1]
    | cons d2 rest2 =>
      have hshift : ∀ i, i + 1 < (d2 :: rest2).length → (d2 :: rest2).getD i 0 ∈ dps →
          g.hasEdge ((d2 :: rest2).getD i 0) ((d2 :: rest2).getD (i + 1) 0) = true := by
        intro i hi hm
        have h2 := h (i + 1) (by simp only [List.length_cons] at hi ⊢; omega)
          (by simpa [List.getD_cons_succ] using hm)
        simpa [List.getD_cons_succ] using h2
      have hIH := ih hshift
      have hfun : (fun i => ruleAt g dps src dst last_out_port (d :: d2 :: rest2) (i + 1)) =
          ruleAt g dps src dst last_out_port (d2 :: rest2) :=
        funext (fun i => ruleAt_cons g dps src dst last_out_port d d2 rest2 i)
      have h0 : ruleAt g dps src dst last_out_port (d :: d2 :: rest2) 0 =
          if d ∈ dps then
            some (.flowMod d src dst (((g.getEdge d d2).map (·.port)).getD 0) 1)
          else none := by
        simp only [ruleAt, List.getD_cons_zero, List.getD_cons_succ, List.length_cons,
          Nat.add_sub_cancel]
        rw [if_neg (by omega : ¬(0 = rest2.length + 1))]
      rw [show (d :: d2 :: rest2).length = (d2 :: rest2).length + 1 from rfl,
        filterMap_range_succ, hfun, h0]
      by_cases hd : d ∈ dps
      · obtain ⟨ed, hed⟩ : ∃ ed, g.getEdge d d2 = some ed := by
          have hE := h 0 (by simp) (by simpa using hd)
          simp only [DiGraph.hasEdge, List.getD_cons_zero, List.getD_cons_succ] at hE
          exact Option.isSome_iff_exists.mp hE
        rw [if_pos hd]
        simp only [install_path_flows, hed, hd, if_true]
        rw [hIH]
        simp [hed]
      · rw [if_neg hd]
        simp only [install_path_flows, hd, if_false]
        rw [hIH]
        simp

/-- Witness for C5: path [1, 2, 3] with switch 2 disconnected; edges
1→2 and 2→3 present, registry only holds switches 1 and 3. -/
theorem C5_install_rules_witness :
    (∀ i, i + 1 < ([1, 2, 3] : List Nat).length → ([1, 2, 3] : List Nat).getD i 0 ∈ [1, 3] →
      (((DiGraph.empty.addEdge 1 2 ⟨5, 1, 100⟩).addEdge 2 3 ⟨6, 1, 100⟩)).hasEdge
        (([1, 2, 3] : List Nat).getD i 0) (([1, 2, 3] : List Nat).getD (i + 1) 0) = true) ∧
    install_path_flows ((DiGraph.empty.addEdge 1 2 ⟨5, 1, 100⟩).addEdge 2 3 ⟨6, 1, 100⟩)
        [1, 3] "hs" "hd" 9 7 [1, 2, 3] =
      ((List.range ([1, 2, 3] : List Nat).length).filterMap
        (ruleAt ((DiGraph.empty.addEdge 1 2 ⟨5, 1, 100⟩).addEdge 2 3 ⟨6, 1, 100⟩)
          [1, 3] "hs" "hd" 7 [1, 2, 3]), none) := by
  have hpre : ∀ i, i + 1 < ([1, 2, 3] : List Nat).length →
      ([1, 2, 3] : List Nat).getD i 0 ∈ [1, 3] →
      (((DiGraph.empty.addEdge 1 2 ⟨5, 1, 100⟩).addEdge 2 3 ⟨6, 1, 100⟩)).hasEdge
        (([1, 2, 3] : List Nat).getD i 0) (([1, 2, 3] : List Nat).getD (i + 1) 0) = true := by
    intro i hi hm
    have hi2 : i < 2 := by simp at hi; omega
    interval_cases i <;> decide
  exact ⟨hpre, C5_install_rules _ [1, 3] "hs" "hd" 9 7 [1, 2, 3] hpre⟩

/-- Claim C4 (amended): for a non-discovery packet-in in a reachable
state — provided that, whenever the destination is known and remote,
the ingress switch and the destination's recorded switch are nodes of
the Topology Graph and no edge weight is negative (otherwise
`nx.shortest_path` can raise `NodeNotFound`, or the uncaught
`ValueError` of `bidirectional_dijkstra` on negative weights) — the
handler raises nothing, records the source at (ingress switch, ingress
port), and emits exactly one terminal packet-out: flood when the
destination is unknown, direct output to the recorded port when its
switch equals the ingress switch, flood when no directed path exists to
the recorded switch, and otherwise output on the egress port of the
edge from the ingress switch to the second switch of the computed path,
with the path's forwarding rules installed as a side effect. -/
theorem C4_packet_in_amended (st : ControllerState) (dpid in_port : Nat) (src dst : String)
    (hst : Reachable st)
    (hsafe : ∀ dd dp, lookupHost ((src, (dpid, in_port)) :: st.hosts) dst = some (dd, dp) →
      dpid ≠ dd → dpid ∈ st.net.nodes ∧ dd ∈ st.net.nodes ∧
        ∀ ed ∈ st.net.edges, 0 ≤ ed.data.weight) :
    (handleEvent st (.packetIn dpid in_port src dst false)).2.2 = none ∧
    (handleEvent st (.packetIn dpid in_port src dst false)).1.hosts =
      (src, (dpid, in_port)) :: st.hosts ∧
    (handleEvent st (.packetIn dpid in_port src dst false)).2.1.countP isPacketOut = 1 ∧
    (lookupHost ((src, (dpid, in_port)) :: st.hosts) dst = none →
      (handleEvent st (.packetIn dpid in_port src dst false)).2.1 =
        [.packetOut dpid in_port OFPP_FLOOD]) ∧
    (∀ dd dp, lookupHost ((src, (dpid, in_port)) :: st.hosts) dst = some (dd, dp) →
      dpid = dd →
      (handleEvent st (.packetIn dpid in_port src dst false)).2.1 =
        [.packetOut dpid in_port dp]) ∧
    (∀ dd dp, lookupHost ((src, (dpid, in_port)) :: st.hosts) dst = some (dd, dp) →
      dpid ≠ dd → ¬Reaches st.net dpid dd →
      (handleEvent st (.packetIn dpid in_port src dst false)).2.1 =
        [.packetOut dpid in_port OFPP_FLOOD]) ∧
    (∀ dd dp, lookupHost ((src, (dpid, in_port)) :: st.hosts) dst = some (dd, dp) →
      dpid ≠ dd → Reaches st.net dpid dd →
      ∃ path ed, calculate_best_path st.net dpid dd = .ok (some path) ∧ 2 ≤ path.length ∧
        st.net.getEdge dpid (path.getD 1 0) = some ed ∧
        (handleEvent st (.packetIn dpid in_port src dst false)).2.1 =
          (install_path_flows st.net st.datapaths src dst in_port dp path).1 ++
            [.packetOut dpid in_port ed.port]) := by
  have hwf := reachable_wf hst
  cases hlk : lookupHost ((src, (dpid, in_port)) :: st.hosts) dst with
  | none =>
    have hr : handleEvent st (.packetIn dpid in_port src dst false) =
        ({ st with hosts := (src, (dpid, in_port)) :: st.hosts },
          [.packetOut dpid in_port OFPP_FLOOD], none) := by
      simp [handleEvent, packet_in_handler, hlk]
    rw [hr]
    refine ⟨rfl, rfl, by simp [List.countP_cons, isPacketOut], fun _ => rfl, ?_, ?_, ?_⟩ <;>
      exact fun dd dp hdd => Option.noConfusion hdd
  | some loc =>
    rcases loc with ⟨dd0, dp0⟩
    by_cases hdd : dpid = dd0
    · subst hdd
      have hr : handleEvent st (.packetIn dpid in_port src dst false) =
          ({ st with hosts := (src, (dpid, in_port)) :: st.hosts },
            [.packetOut dpid in_port dp0], none) := by
        simp [handleEvent, packet_in_handler, hlk]
      rw [hr]
      refine ⟨rfl, rfl, by simp [List.countP_cons, isPacketOut], fun hno => Option.noConfusion hno,
        ?_, ?_, ?_⟩
      · intro dd dp heq _
        injection heq with h1
        injection h1 with ha hb
        subst ha
        subst hb
        rfl
      · intro dd dp heq hne _
        injection heq with h1
        injection h1 with ha hb
        exact absurd ha hne
      · intro dd dp heq hne _
        injection heq with h1
        injection h1 with ha hb
        exact absurd ha hne
    · have hmem := hsafe dd0 dp0 hlk hdd
      by_cases hre : Reaches st.net dpid dd0
      · obtain ⟨path, hcalc⟩ := calc_some_of_reaches hwf hmem.1 hmem.2.1 hdd hmem.2.2 hre
        have hp := calc_ok_some_props hdd hcalc
        obtain ⟨ed, hed⟩ := path_first_edge hp.1 hp.2.2.1 hp.2.2.2
        have hinst := install_snd_none st.net st.datapaths src dst in_port dp0 path hp.2.2.1
        have hr : handleEvent st (.packetIn dpid in_port src dst false) =
            ({ st with hosts := (src, (dpid, in_port)) :: st.hosts },
              (install_path_flows st.net st.datapaths src dst in_port dp0 path).1 ++
                [.packetOut dpid in_port ed.port], none) := by
          have hed2 : st.net.getEdge dpid (path[1]?.getD 0) = some ed := by
            rw [← List.getD_eq_getElem?_getD]
            exact hed
          simp [handleEvent, packet_in_handler, hlk, hdd, hcalc, hp.2.2.2, hed2, hinst]
        rw [hr]
        refine ⟨rfl, rfl,
          by simp [List.countP_append, install_countP_packetOut, List.countP_cons,
            isPacketOut],
          fun hno => Option.noConfusion hno, ?_, ?_, ?_⟩
        · intro dd dp heq heqd
          injection heq with h1
          injection h1 with ha hb
          exact absurd (heqd.trans ha.symm) hdd
        · intro dd dp heq hne hnr
          injection heq with h1
          injection h1 with ha hb
          exact absurd (ha ▸ hre) hnr
        · intro dd dp heq hne hre2
          injection heq with h1
          injection h1 with ha hb
          subst ha
          subst hb
          exact ⟨path, ed, hcalc, hp.2.2.2, hed, rfl⟩
      · have hcalc := calc_none_of_not_reaches hmem.1 hmem.2.1 hdd hmem.2.2 hre
        have hr : handleEvent st (.packetIn dpid in_port src dst false) =
            ({ st with hosts := (src, (dpid, in_port)) :: st.hosts },
              [.packetOut dpid in_port OFPP_FLOOD], none) := by
          simp [handleEvent, packet_in_handler, hlk, hdd, hcalc]
        rw [hr]
        refine ⟨rfl, rfl, by simp [List.countP_cons, isPacketOut], fun hno => Option.noConfusion hno,
          ?_, ?_, ?_⟩
        · intro dd dp heq heqd
          injection heq with h1
          injection h1 with ha hb
          exact absurd (heqd.trans ha.symm) hdd
        · intro dd dp heq hne hnr
          rfl
        · intro dd dp heq hne hre2
          injection heq with h1
          injection h1 with ha hb
          exact absurd (ha.symm ▸ hre2) hre

/-- Claim C4 (counterexample): a non-discovery packet-in whose known
destination is recorded on a different switch that is absent from the
Topology Graph yields NO terminal action at all: `calculate_best_path`
raises `NodeNotFound` (uncaught) before the packet-out is sent,
refuting "exactly one terminal action results". -/
theorem C4_terminal_action_cex :
    Reachable (handleEvent initState (.packetIn 5 2 "hA" "hX" false)).1 ∧
    (handleEvent (handleEvent initState (.packetIn 5 2 "hA" "hX" false)).1
      (.packetIn 1 4 "hB" "hA" false)).2.1 = [] ∧
    (handleEvent (handleEvent initState (.packetIn 5 2 "hA" "hX" false)).1
      (.packetIn 1 4 "hB" "hA" false)).2.2 = some .nodeNotFound :=
  ⟨Reachable.event _ _ Reachable.init, by decide, by decide⟩

/-- Witness for C4: a link 1↔2 discovered, host "h2" learned at
(switch 2, port 9), then a packet from "h1" at (switch 1, port 4) to
"h2"; the hypotheses are discharged and the handler returns normally. -/
theorem C4_packet_in_witness :
    Reachable (handleEvent (handleEvent initState (.linkAdd 1 2 5 7)).1
      (.packetIn 2 9 "h2" "nobody" false)).1 ∧
    (∀ dd dp, lookupHost (("h1", ((1 : Nat), (4 : Nat))) ::
        (handleEvent (handleEvent initState (.linkAdd 1 2 5 7)).1
          (.packetIn 2 9 "h2" "nobody" false)).1.hosts) "h2" = some (dd, dp) →
      (1 : Nat) ≠ dd →
      (1 : Nat) ∈ (handleEvent (handleEvent initState (.linkAdd 1 2 5 7)).1
        (.packetIn 2 9 "h2" "nobody" false)).1.net.nodes ∧
      dd ∈ (handleEvent (handleEvent initState (.linkAdd 1 2 5 7)).1
        (.packetIn 2 9 "h2" "nobody" false)).1.net.nodes ∧
      ∀ ed ∈ (handleEvent (handleEvent initState (.linkAdd 1 2 5 7)).1
        (.packetIn 2 9 "h2" "nobody" false)).1.net.edges, 0 ≤ ed.data.weight) ∧
    (handleEvent (handleEvent (handleEvent initState (.linkAdd 1 2 5 7)).1
      (.packetIn 2 9 "h2" "nobody" false)).1 (.packetIn 1 4 "h1" "h2" false)).2.2 = none := by
  have hR : Reachable (handleEvent (handleEvent initState (.linkAdd 1 2 5 7)).1
      (.packetIn 2 9 "h2" "nobody" false)).1 :=
    Reachable.event _ _ (Reachable.event _ _ Reachable.init)
  have hsafe : ∀ dd dp, lookupHost (("h1", ((1 : Nat), (4 : Nat))) ::
      (handleEvent (handleEvent initState (.linkAdd 1 2 5 7)).1
        (.packetIn 2 9 "h2" "nobody" false)).1.hosts) "h2" = some (dd, dp) →
      (1 : Nat) ≠ dd →
      (1 : Nat) ∈ (handleEvent (handleEvent initState (.linkAdd 1 2 5 7)).1
        (.packetIn 2 9 "h2" "nobody" false)).1.net.nodes ∧
      dd ∈ (handleEvent (handleEvent initState (.linkAdd 1 2 5 7)).1
        (.packetIn 2 9 "h2" "nobody" false)).1.net.nodes ∧
      ∀ ed ∈ (handleEvent (handleEvent initState (.linkAdd 1 2 5 7)).1
        (.packetIn 2 9 "h2" "nobody" false)).1.net.edges, 0 ≤ ed.data.weight := by
    intro dd dp h hne
    have heval : lookupHost (("h1", ((1 : Nat), (4 : Nat))) ::
        (handleEvent (handleEvent initState (.linkAdd 1 2 5 7)).1
          (.packetIn 2 9 "h2" "nobody" false)).1.hosts) "h2" = some (2, 9) := by decide
    rw [heval] at h
    injection h with h1
    injection h1 with ha hb
    subst ha
    exact ⟨by decide, by decide, by decide⟩
  exact ⟨hR, hsafe, (C4_packet_in_amended _ 1 4 "h1" "h2" hR hsafe).1⟩

end Controller
